import Mathlib

/-!
DNA substring search with IUPAC ambiguity codes

A shallow embedding of `practice/simulate/dna_string_search/dna_string_search.cpp`
and `practice/simulate/dna_ngram_search/dna_ngram_search.cpp`.

* A C++ `std::string` is a `List Char`; `s[i]` is `s[i]?`, and a read outside the
  string makes the procedure stop with `Fault.outOfRange`.
* Every `while`/`for` loop is a recursive function on its loop variables with an
  extra fuel argument; running out of fuel is `Fault.outOfFuel`.  The entry
  points start the loops with a fuel bound computed from the input lengths.
* `int seqLen = sequence.length()` and `int patLen = pattern.length()` are the
  lengths converted by `toInt` (modulo `2 ^ 32`, signed), so strings of `2 ^ 31`
  characters and more are run with the wrapped lengths, as the code runs them.
  The `int` cursors `i`, `j`, `length` are natural numbers: they start at `0` or
  `1`, are only incremented while below an `int` bound, and the one subtraction
  on them, `i - j + 1` in the naive search, is taken with `j ≤ i`.
* `std::unordered_set<string>` is a duplicate-free list (insertion through
  `List.insert`); `std::unordered_map` is an association list.  Iteration order of
  the C++ containers is unspecified, so only order-insensitive facts are stated
  about them.
-/

namespace DNA

/-! ## Alphabet -/

/-- The table `patternCharMap` as left by `initializePatternMap`. -/
def patternCharMap : List (Char × List Char) :=
  [ ('A', ['A']), ('C', ['C']), ('G', ['G']), ('T', ['T']),
    ('R', ['A', 'G']), ('Y', ['C', 'T']), ('M', ['A', 'C']), ('K', ['G', 'T']),
    ('W', ['A', 'T']), ('S', ['C', 'G']),
    ('B', ['C', 'G', 'T']), ('D', ['A', 'G', 'T']), ('H', ['A', 'C', 'T']),
    ('V', ['A', 'C', 'G']), ('N', ['A', 'C', 'G', 'T']) ]

/-- The four concrete bases, as tested inline by `matchesPattern` and
`isValidSequence`. -/
def isBase (c : Char) : Bool :=
  !(c != 'A' && c != 'C' && c != 'G' && c != 'T')

/-- `matchesPattern(patternChar, seqChar)`. -/
def matchesPattern (patternChar seqChar : Char) : Bool :=
  match patternCharMap.lookup patternChar with
  | none => false
  | some allowed =>
    if seqChar != 'A' && seqChar != 'C' && seqChar != 'G' && seqChar != 'T' then false
    else decide (allowed.count seqChar > 0)

/-- `isValidSequence(sequence)`. -/
def isValidSequence : List Char → Bool
  | [] => true
  | c :: rest =>
    if c != 'A' && c != 'C' && c != 'G' && c != 'T' then false
    else isValidSequence rest

/-- `isValidPattern(pattern)`. -/
def isValidPattern : List Char → Bool
  | [] => true
  | c :: rest =>
    if (patternCharMap.lookup c).isNone then false else isValidPattern rest

/-- The loop of `patternCharsMatch` over the bases of the first symbol. -/
def overlapLoop (second : List Char) : List Char → Bool
  | [] => false
  | base :: rest => if second.count base > 0 then true else overlapLoop second rest

/-- `patternCharsMatch(p1, p2)`. -/
def patternCharsMatch (p1 p2 : Char) : Bool :=
  match patternCharMap.lookup p1, patternCharMap.lookup p2 with
  | some first, some second => overlapLoop second first
  | _, _ => false

/-! ## Faults of the embedding -/

/-- The ways a run of the embedding can fail to return a verdict: the two
artefacts of the embedding (fuel, a read or write outside a string or vector),
the `std::length_error` thrown by `vector<int> lps(patLen, 0)` on a negative
`patLen`, and signed overflow of an `int` expression (undefined behaviour). -/
inductive Fault where
  | outOfFuel
  | outOfRange
  | lengthError
  | intOverflow
  deriving DecidableEq, Repr

deriving instance DecidableEq for Except

/-! ## Lengths as `int` -/

/-- The conversion in `int seqLen = sequence.length()`: the `size_t` length
modulo `2 ^ 32`, read as a signed 32-bit number.  Lengths below `2 ^ 31` are
kept; a length of `2 ^ 31` becomes `-2 ^ 31`, a length of `2 ^ 32` becomes `0`. -/
def toInt (n : Nat) : Int :=
  if n % 2 ^ 32 < 2 ^ 31 then ((n % 2 ^ 32 : Nat) : Int)
  else ((n % 2 ^ 32 : Nat) : Int) - 2 ^ 32

/-! ## Naive search -/

/-- The `while` loop of `searchDNASequenceNaive`, on the cursors `i`, `j`, with
the two `int` lengths. -/
def naiveLoop (sequence pattern : List Char) (seqLen patLen : Int) :
    Nat → Nat → Nat → Except Fault Bool
  | 0, _, _ => .error .outOfFuel
  | fuel + 1, i, j =>
    if (i : Int) < seqLen ∧ (j : Int) < patLen then
      match sequence[i]?, pattern[j]? with
      | some seqChar, some patChar =>
        if matchesPattern patChar seqChar then
          naiveLoop sequence pattern seqLen patLen fuel (i + 1) (j + 1)
        else naiveLoop sequence pattern seqLen patLen fuel (i - j + 1) 0
      | _, _ => .error .outOfRange
    else .ok ((j : Int) == patLen)

/-- `searchDNASequenceNaive(sequence, pattern)`. -/
def searchDNASequenceNaive (sequence pattern : List Char) : Except Fault Bool :=
  naiveLoop sequence pattern (toInt sequence.length) (toInt pattern.length)
    ((sequence.length + 1) * (pattern.length + 1) + 1) 0 0

/-! ## Sliding window search -/

/-- The inner `for` loop of `searchDNASequenceSlidingWindow`: compares the window
at offset `i` from pattern position `j` on; `false` is the `break`. -/
def windowLoop (sequence pattern : List Char) (patLen : Int) (i : Nat) :
    Nat → Nat → Except Fault Bool
  | 0, _ => .error .outOfFuel
  | fuel + 1, j =>
    if (j : Int) < patLen then
      match sequence[i + j]?, pattern[j]? with
      | some seqChar, some patChar =>
        if !matchesPattern patChar seqChar then .ok false
        else windowLoop sequence pattern patLen i fuel (j + 1)
      | _, _ => .error .outOfRange
    else .ok true

/-- The outer `for` loop of `searchDNASequenceSlidingWindow`, entered with
`patLen ≤ seqLen` and `seqLen - patLen` inside the `int` range. -/
def slideLoop (sequence pattern : List Char) (seqLen patLen : Int) :
    Nat → Nat → Except Fault Bool
  | 0, _ => .error .outOfFuel
  | fuel + 1, i =>
    if (i : Int) ≤ seqLen - patLen then
      match windowLoop sequence pattern patLen i (pattern.length + 1) 0 with
      | .error e => .error e
      | .ok true => .ok true
      | .ok false => slideLoop sequence pattern seqLen patLen fuel (i + 1)
    else .ok false

/-- `searchDNASequenceSlidingWindow(sequence, pattern)`.  The loop condition
`i <= seqLen - patLen` overflows the `int` range when `seqLen - patLen` exceeds
`2 ^ 31 - 1` (possible only with a negative `patLen`). -/
def searchDNASequenceSlidingWindow (sequence pattern : List Char) : Except Fault Bool :=
  let seqLen := toInt sequence.length
  let patLen := toInt pattern.length
  if patLen = 0 then .ok true
  else if seqLen < patLen then .ok false
  else if 2 ^ 31 ≤ seqLen - patLen then .error .intOverflow
  else slideLoop sequence pattern seqLen patLen (sequence.length + 2) 0

/-! ## KMP search -/

/-- The `while` loop of `buildKMPTable`, on the table `lps`, the border length
`length` and the cursor `i`, with the `int` length `patLen`. -/
def tableLoop (pattern : List Char) (patLen : Int) :
    Nat → List Nat → Nat → Nat → Except Fault (List Nat)
  | 0, _, _, _ => .error .outOfFuel
  | fuel + 1, lps, length, i =>
    if (i : Int) < patLen then
      match pattern[i]?, pattern[length]? with
      | some a, some b =>
        if patternCharsMatch a b then
          if i < lps.length then
            tableLoop pattern patLen fuel (lps.set i (length + 1)) (length + 1) (i + 1)
          else .error .outOfRange
        else if length ≠ 0 then
          match lps[length - 1]? with
          | some shorter => tableLoop pattern patLen fuel lps shorter i
          | none => .error .outOfRange
        else if i < lps.length then tableLoop pattern patLen fuel (lps.set i 0) 0 (i + 1)
        else .error .outOfRange
      | _, _ => .error .outOfRange
    else .ok lps

/-- `buildKMPTable(pattern)`: `vector<int> lps(patLen, 0)` throws on a negative
`patLen`; the write `lps[0] = 0` is outside the table when `patLen` is `0`. -/
def buildKMPTable (pattern : List Char) : Except Fault (List Nat) :=
  let patLen := toInt pattern.length
  if patLen < 0 then .error .lengthError
  else
    let lps := List.replicate patLen.toNat 0
    if 0 < lps.length then tableLoop pattern patLen (2 * pattern.length + 1) (lps.set 0 0) 0 1
    else .error .outOfRange

/-- The cursor update of one iteration of the scan in `searchDNASequenceKMP`. -/
def kmpAdvance (lps : List Nat) (matched : Bool) (i j : Nat) : Except Fault (Nat × Nat) :=
  if matched then .ok (i + 1, j + 1)
  else if j ≠ 0 then
    match lps[j - 1]? with
    | some shorter => .ok (i, shorter)
    | none => .error .outOfRange
  else .ok (i + 1, j)

/-- The `while` loop of `searchDNASequenceKMP`, on the cursors `i`, `j`, with
the two `int` lengths. -/
def kmpLoop (sequence pattern : List Char) (lps : List Nat) (seqLen patLen : Int) :
    Nat → Nat → Nat → Except Fault Bool
  | 0, _, _ => .error .outOfFuel
  | fuel + 1, i, j =>
    if (i : Int) < seqLen then
      match sequence[i]?, pattern[j]? with
      | some seqChar, some patChar =>
        match kmpAdvance lps (matchesPattern patChar seqChar) i j with
        | .error e => .error e
        | .ok (i', j') =>
          if (j' : Int) = patLen then .ok true
          else kmpLoop sequence pattern lps seqLen patLen fuel i' j'
      | _, _ => .error .outOfRange
    else .ok false

/-- `searchDNASequenceKMP(sequence, pattern)`. -/
def searchDNASequenceKMP (sequence pattern : List Char) : Except Fault Bool :=
  let seqLen := toInt sequence.length
  let patLen := toInt pattern.length
  if patLen = 0 then .ok true
  else if seqLen = 0 then .ok false
  else
    match buildKMPTable pattern with
    | .error e => .error e
    | .ok lps => kmpLoop sequence pattern lps seqLen patLen (2 * sequence.length + 1) 0 0

/-! ## The n-gram search engine

`dna_ngram_search.cpp` declares its own `patternCharMap`, filled by an
`initializePatternMap` with the same fifteen entries; the table above stands for
both. -/

/-- Conversion of the `int` n-gram size to `size_t`, as done by the comparisons,
the subtraction and the `substr` call in `extractNGrams`: a negative `int` wraps
around modulo `2 ^ 64`. -/
def toSizeT (n : Int) : Nat :=
  if 0 ≤ n then n.toNat else (2 ^ 64 + n).toNat

/-- `DNASearchEngine::extractNGrams(sequence)` for n-gram size `n`; `substr(i, n)`
is `take n` after `drop i`. -/
def extractNGrams (n : Int) (sequence : List Char) : List (List Char) :=
  if sequence.length < toSizeT n then []
  else (List.range (sequence.length - toSizeT n + 1)).map
    (fun i => (sequence.drop i).take (toSizeT n))

/-- The character test inside `matchesQuery`: the query symbol is in the table
and its set holds the sequence character. -/
def queryCharMatches (queryChar seqChar : Char) : Bool :=
  match patternCharMap.lookup queryChar with
  | none => false
  | some allowed => !(allowed.count seqChar == 0)

/-- The inner `for` loop of `matchesQuery`; `false` is the `break`. -/
def queryWindowLoop (sequence query : List Char) (i : Nat) : Nat → Nat → Except Fault Bool
  | 0, _ => .error .outOfFuel
  | fuel + 1, j =>
    if j < query.length then
      match sequence[i + j]?, query[j]? with
      | some seqChar, some queryChar =>
        if !queryCharMatches queryChar seqChar then .ok false
        else queryWindowLoop sequence query i fuel (j + 1)
      | _, _ => .error .outOfRange
    else .ok true

/-- The outer `for` loop of `matchesQuery`. -/
def queryLoop (sequence query : List Char) : Nat → Nat → Except Fault Bool
  | 0, _ => .error .outOfFuel
  | fuel + 1, i =>
    if i ≤ sequence.length - query.length then
      match queryWindowLoop sequence query i (query.length + 1) 0 with
      | .error e => .error e
      | .ok true => .ok true
      | .ok false => queryLoop sequence query fuel (i + 1)
    else .ok false

/-- `DNASearchEngine::matchesQuery(sequence, query)`. -/
def matchesQuery (sequence query : List Char) : Except Fault Bool :=
  if query.length > sequence.length then .ok false
  else queryLoop sequence query (sequence.length - query.length + 2) 0

/-- The loop `for seq in ...: if (matchesQuery(seq, query)) results.push_back(seq)`,
shared by `directSearch` (over the stored sequences) and by step 4 of `search`
(over the candidates). -/
def matchingLoop (query : List Char) :
    List (List Char) → List (List Char) → Except Fault (List (List Char))
  | [], results => .ok results
  | seq :: rest, results =>
    match matchesQuery seq query with
    | .error e => .error e
    | .ok true => matchingLoop query rest (results ++ [seq])
    | .ok false => matchingLoop query rest results

/-- `ngramIndex[ngram].insert(seq)` on the association list: the set under the key
is created when the key is new. -/
def indexInsert (ngram seq : List Char) :
    List (List Char × List (List Char)) → List (List Char × List (List Char))
  | [] => [(ngram, [seq])]
  | (key, posting) :: rest =>
    if ngram == key then (key, List.insert seq posting) :: rest
    else (key, posting) :: indexInsert ngram seq rest

/-- The inner loop of `buildIndex`: every n-gram of `seq` gets `seq` inserted. -/
def insertLoop (seq : List Char) :
    List (List Char) → List (List Char × List (List Char)) →
      List (List Char × List (List Char))
  | [], index => index
  | ngram :: rest, index => insertLoop seq rest (indexInsert ngram seq index)

/-- The outer loop of `buildIndex` over the stored sequences. -/
def buildLoop (n : Int) :
    List (List Char) → List (List Char × List (List Char)) →
      List (List Char × List (List Char))
  | [], index => index
  | seq :: rest, index => buildLoop n rest (insertLoop seq (extractNGrams n seq) index)

/-- The state of a `DNASearchEngine`. -/
structure DNASearchEngine where
  sequences : List (List Char)
  ngramIndex : List (List Char × List (List Char))
  n : Int

/-- The constructor `DNASearchEngine(seqs, ngramSize)`: stores both and runs
`buildIndex` on the empty index. -/
def DNASearchEngine.create (seqs : List (List Char)) (ngramSize : Int) : DNASearchEngine :=
  { sequences := seqs, ngramIndex := buildLoop ngramSize seqs [], n := ngramSize }

/-- `DNASearchEngine::directSearch(query)`. -/
def DNASearchEngine.directSearch (e : DNASearchEngine) (query : List Char) :
    Except Fault (List (List Char)) :=
  matchingLoop query e.sequences []

/-- The intersection loop of `search`: the candidates found in the posting list
are inserted into `newCandidates`. -/
def intersectLoop (posting : List (List Char)) :
    List (List Char) → List (List Char) → List (List Char)
  | [], newCandidates => newCandidates
  | seq :: rest, newCandidates =>
    if posting.count seq > 0 then intersectLoop posting rest (List.insert seq newCandidates)
    else intersectLoop posting rest newCandidates

/-- Step 2 of `search`: the loop over the query n-grams, with its position `i`
and the running `candidates`. -/
def candidateLoop (index : List (List Char × List (List Char))) :
    List (List Char) → Nat → List (List Char) → List (List Char)
  | [], _, candidates => candidates
  | ngram :: rest, i, candidates =>
    let it := index.lookup ngram
    let next :=
      if i = 0 then
        match it with
        | some posting => posting
        | none => candidates
      else
        match it with
        | some posting => intersectLoop posting candidates []
        | none => []
    candidateLoop index rest (i + 1) next

/-- `DNASearchEngine::search(query)`. -/
def DNASearchEngine.search (e : DNASearchEngine) (query : List Char) :
    Except Fault (List (List Char)) :=
  let queryNGrams := extractNGrams e.n query
  if queryNGrams.isEmpty then e.directSearch query
  else matchingLoop query (candidateLoop e.ngramIndex queryNGrams 0 []) []

/-! ## Specification side: occurrences of a pattern -/

/-- The pattern occurs in the sequence at offset `i`: the window fits and every
pattern symbol matches the base under it. -/
def MatchAt (sequence pattern : List Char) (i : Nat) : Prop :=
  i + pattern.length ≤ sequence.length ∧
    ∀ j a b, pattern[j]? = some a → sequence[i + j]? = some b → matchesPattern a b = true

/-- Position `j` of the pattern against position `i` of the sequence; `false`
outside either string. -/
def symMatch (pattern sequence : List Char) (j i : Nat) : Bool :=
  match pattern[j]?, sequence[i]? with
  | some a, some b => matchesPattern a b
  | _, _ => false

/-! ## Proofs: lengths that fit an `int` -/

theorem toInt_of_lt (n : Nat) (h : n < 2 ^ 31) : toInt n = (n : Int) := by
  unfold toInt
  split <;> omega

theorem toInt_le (n : Nat) : toInt n ≤ (n : Int) := by
  unfold toInt
  split <;> omega

theorem toInt_range (n : Nat) : -(2 : Int) ^ 31 ≤ toInt n ∧ toInt n < 2 ^ 31 := by
  unfold toInt
  split <;> omega

/-! ## Proofs: sliding window -/

theorem matchAt_iff (s p : List Char) (i : Nat) :
    MatchAt s p i ↔ i + p.length ≤ s.length ∧ ∀ j, j < p.length → symMatch p s j (i + j) = true := by
  unfold MatchAt
  constructor
  · rintro ⟨hb, h⟩
    refine ⟨hb, fun j hj => ?_⟩
    have hi : i + j < s.length := by omega
    have := h j p[j] s[i + j] (List.getElem?_eq_getElem hj) (List.getElem?_eq_getElem hi)
    simp [symMatch, List.getElem?_eq_getElem hj, List.getElem?_eq_getElem hi, this]
  · rintro ⟨hb, h⟩
    refine ⟨hb, fun j a b ha hb2 => ?_⟩
    have hj : j < p.length := by
      by_contra hc
      rw [List.getElem?_eq_none (by omega)] at ha
      cases ha
    have := h j hj
    simpa [symMatch, ha, hb2] using this

theorem windowLoop_step (s p : List Char) (patLen : Int) (i fuel j : Nat)
    (hjp : (j : Int) < patLen) (hj : j < p.length) (hi : i + j < s.length) :
    windowLoop s p patLen i (fuel + 1) j =
      if symMatch p s j (i + j) then windowLoop s p patLen i fuel (j + 1) else .ok false := by
  rw [windowLoop]
  simp only [hjp, if_true, symMatch, List.getElem?_eq_getElem hj, List.getElem?_eq_getElem hi]
  cases matchesPattern p[j] s[i + j] <;> simp

theorem windowLoop_exit (s p : List Char) (patLen : Int) (i fuel j : Nat)
    (hj : ¬ (j : Int) < patLen) :
    windowLoop s p patLen i (fuel + 1) j = .ok true := by
  rw [windowLoop]
  simp [hj]

theorem windowLoop_spec (s p : List Char) (i : Nat) (hb : i + p.length ≤ s.length) :
    ∀ fuel j, j ≤ p.length → p.length - j < fuel →
      ∃ b, windowLoop s p (p.length : Int) i fuel j = .ok b ∧
        (b = true ↔ ∀ x, j ≤ x → x < p.length → symMatch p s x (i + x) = true) := by
  intro fuel
  induction fuel with
  | zero => intro j _ h; omega
  | succ fuel ih =>
    intro j hj hf
    by_cases hlt : j < p.length
    · rw [windowLoop_step s p _ i fuel j (by omega) hlt (by omega)]
      by_cases hm : symMatch p s j (i + j) = true
      · obtain ⟨b, hb1, hb2⟩ := ih (j + 1) (by omega) (by omega)
        refine ⟨b, by simp [hm, hb1], ?_⟩
        rw [hb2]
        constructor
        · intro h x hx hxl
          by_cases hxj : x = j
          · subst hxj; exact hm
          · exact h x (by omega) hxl
        · intro h x hx hxl
          exact h x (by omega) hxl
      · refine ⟨false, by simp [hm], ?_⟩
        constructor
        · intro h; cases h
        · intro h; exact absurd (h j (le_refl j) hlt) hm
    · refine ⟨true, windowLoop_exit s p _ i fuel j (by omega), ?_⟩
      simp only [true_iff]
      intro x hx hxl
      omega

theorem slideLoop_step (s p : List Char) (seqLen patLen : Int) (fuel i : Nat)
    (hi : (i : Int) ≤ seqLen - patLen) :
    slideLoop s p seqLen patLen (fuel + 1) i =
      match windowLoop s p patLen i (p.length + 1) 0 with
      | .error e => .error e
      | .ok true => .ok true
      | .ok false => slideLoop s p seqLen patLen fuel (i + 1) := by
  rw [slideLoop]
  simp only [hi, if_true]

theorem slideLoop_exit (s p : List Char) (seqLen patLen : Int) (fuel i : Nat)
    (hi : ¬ (i : Int) ≤ seqLen - patLen) :
    slideLoop s p seqLen patLen (fuel + 1) i = .ok false := by
  rw [slideLoop]
  simp only [hi, if_false]

theorem slideLoop_spec (s p : List Char) (hle : p.length ≤ s.length) :
    ∀ fuel i, s.length - p.length + 1 - i < fuel →
      ∃ b, slideLoop s p (s.length : Int) (p.length : Int) fuel i = .ok b ∧
        (b = true ↔ ∃ k, i ≤ k ∧ MatchAt s p k) := by
  intro fuel
  induction fuel with
  | zero => intro i h; omega
  | succ fuel ih =>
    intro i hf
    by_cases hi : i ≤ s.length - p.length
    · rw [slideLoop_step s p _ _ fuel i (by omega)]
      obtain ⟨b, hb1, hb2⟩ := windowLoop_spec s p i (by omega) (p.length + 1) 0 (by omega) (by omega)
      rw [hb1]
      cases b with
      | true =>
        refine ⟨true, rfl, ?_⟩
        simp only [true_iff]
        refine ⟨i, le_refl i, (matchAt_iff s p i).2 ⟨by omega, fun j hj => ?_⟩⟩
        exact hb2.1 rfl j (Nat.zero_le j) hj
      | false =>
        obtain ⟨b, hc1, hc2⟩ := ih (i + 1) (by omega)
        refine ⟨b, hc1, ?_⟩
        rw [hc2]
        constructor
        · rintro ⟨k, hk, hm⟩; exact ⟨k, by omega, hm⟩
        · rintro ⟨k, hk, hm⟩
          by_cases hki : k = i
          · subst hki
            have := hb2.2 (fun x _ hx => ((matchAt_iff s p k).1 hm).2 x hx)
            cases this
          · exact ⟨k, by omega, hm⟩
    · refine ⟨false, slideLoop_exit s p _ _ fuel i (by omega), ?_⟩
      constructor
      · intro h; cases h
      · rintro ⟨k, hk, hm⟩
        have := hm.1
        omega

theorem slidingWindow_spec (s p : List Char) (hs : s.length < 2 ^ 31)
    (hp : p.length < 2 ^ 31) :
    ∃ b, searchDNASequenceSlidingWindow s p = .ok b ∧ (b = true ↔ ∃ i, MatchAt s p i) := by
  unfold searchDNASequenceSlidingWindow
  simp only [toInt_of_lt _ hs, toInt_of_lt _ hp]
  by_cases h0 : p.length = 0
  · refine ⟨true, by simp [h0], ?_⟩
    simp only [true_iff]
    refine ⟨0, (matchAt_iff s p 0).2 ⟨by omega, fun j hj => by omega⟩⟩
  · have h0' : ¬ (p.length : Int) = 0 := by omega
    by_cases hlt : s.length < p.length
    · have hlt' : (s.length : Int) < (p.length : Int) := by omega
      refine ⟨false, by simp only [h0', hlt', if_false, if_true], ?_⟩
      constructor
      · intro h; cases h
      · rintro ⟨k, hm⟩
        have := hm.1
        omega
    · have hlt' : ¬ (s.length : Int) < (p.length : Int) := by omega
      have hov : ¬ (2 : Int) ^ 31 ≤ (s.length : Int) - (p.length : Int) := by omega
      obtain ⟨b, hb1, hb2⟩ := slideLoop_spec s p (by omega) (s.length + 2) 0 (by omega)
      refine ⟨b, by simp only [h0', hlt', hov, if_false, hb1], ?_⟩
      rw [hb2]
      constructor
      · rintro ⟨k, _, hm⟩; exact ⟨k, hm⟩
      · rintro ⟨k, hm⟩; exact ⟨k, Nat.zero_le k, hm⟩

/-! ## Proofs: naive search -/

theorem naiveLoop_step (s p : List Char) (seqLen patLen : Int) (fuel i j : Nat)
    (hip : (i : Int) < seqLen) (hjp : (j : Int) < patLen) (hi : i < s.length)
    (hj : j < p.length) :
    naiveLoop s p seqLen patLen (fuel + 1) i j =
      if symMatch p s j i then naiveLoop s p seqLen patLen fuel (i + 1) (j + 1)
      else naiveLoop s p seqLen patLen fuel (i - j + 1) 0 := by
  rw [naiveLoop]
  simp only [hip, hjp, and_self, if_true, symMatch, List.getElem?_eq_getElem hj,
    List.getElem?_eq_getElem hi]

theorem naiveLoop_exit (s p : List Char) (seqLen patLen : Int) (fuel i j : Nat)
    (h : ¬ ((i : Int) < seqLen ∧ (j : Int) < patLen)) :
    naiveLoop s p seqLen patLen (fuel + 1) i j = .ok ((j : Int) == patLen) := by
  rw [naiveLoop]
  simp only [h, if_false]

theorem naiveLoop_spec (s p : List Char) :
    ∀ fuel i j, j ≤ i → i ≤ s.length → j ≤ p.length →
      (s.length - (i - j)) * (p.length + 1) + (p.length - j) < fuel →
      (∀ x, x < j → symMatch p s x (i - j + x) = true) →
      (∀ k, k < i - j → ¬ MatchAt s p k) →
      ∃ b, naiveLoop s p (s.length : Int) (p.length : Int) fuel i j = .ok b ∧
        (b = true ↔ ∃ k, MatchAt s p k) := by
  intro fuel
  induction fuel with
  | zero => intro i j _ _ _ h; omega
  | succ fuel ih =>
    intro i j hji hin hjm hf hpart hprev
    by_cases hc : i < s.length ∧ j < p.length
    · obtain ⟨hi, hj⟩ := hc
      rw [naiveLoop_step s p _ _ fuel i j (by omega) (by omega) hi hj]
      by_cases hm : symMatch p s j i = true
      · simp only [hm, if_true]
        have e : i + 1 - (j + 1) = i - j := by omega
        apply ih (i + 1) (j + 1) (by omega) (by omega) (by omega)
        · rw [e]; omega
        · intro x hx
          rw [e]
          by_cases hxj : x = j
          · subst hxj
            have : i - x + x = i := by omega
            rw [this]; exact hm
          · exact hpart x (by omega)
        · rw [e]; exact hprev
      · simp only [hm, Bool.false_eq_true, if_false]
        apply ih (i - j + 1) 0 (by omega) (by omega) (by omega)
        · obtain ⟨d, hd⟩ : ∃ d, s.length - (i - j) = d + 1 := ⟨s.length - (i - j) - 1, by omega⟩
          have e1 : s.length - (i - j + 1 - 0) = d := by omega
          rw [e1]
          rw [hd, Nat.succ_mul] at hf
          omega
        · intro x hx; omega
        · intro k hk hmk
          by_cases hki : k = i - j
          · subst hki
            have := ((matchAt_iff s p (i - j)).1 hmk).2 j hj
            have e2 : i - j + j = i := by omega
            rw [e2] at this
            exact hm this
          · exact hprev k (by omega) hmk
    · rw [naiveLoop_exit s p _ _ fuel i j (by omega)]
      refine ⟨(j : Int) == (p.length : Int), rfl, ?_⟩
      by_cases hj : j = p.length
      · have hb : ((j : Int) == (p.length : Int)) = true := by simp [hj]
        rw [hb]
        simp only [true_iff]
        refine ⟨i - j, (matchAt_iff s p (i - j)).2 ⟨by omega, fun x hx => hpart x (by omega)⟩⟩
      · have hne : ((j : Int) == (p.length : Int)) = false := by
          simp only [beq_eq_false_iff_ne, ne_eq]
          omega
        rw [hne]
        constructor
        · intro h; cases h
        · rintro ⟨k, hmk⟩
          by_cases hk : k < i - j
          · exact absurd hmk (hprev k hk)
          · have := hmk.1
            omega

theorem naive_spec (s p : List Char) (hs : s.length < 2 ^ 31) (hp : p.length < 2 ^ 31) :
    ∃ b, searchDNASequenceNaive s p = .ok b ∧ (b = true ↔ ∃ i, MatchAt s p i) := by
  unfold searchDNASequenceNaive
  rw [toInt_of_lt _ hs, toInt_of_lt _ hp]
  apply naiveLoop_spec s p _ 0 0 (le_refl 0) (Nat.zero_le _) (Nat.zero_le _)
  · simp only [Nat.sub_zero]
    rw [Nat.succ_mul]
    omega
  · intro x hx; omega
  · intro k hk; omega

/-! ## Proofs: the failure table -/

/-- Compatibility of two pattern positions; `false` outside the pattern. -/
def symCompat (pattern : List Char) (x y : Nat) : Bool :=
  match pattern[x]?, pattern[y]? with
  | some a, some b => patternCharsMatch a b
  | _, _ => false

theorem tableLoop_step (p : List Char) (patLen : Int) (fuel : Nat) (lps : List Nat)
    (length i : Nat) (hip : (i : Int) < patLen) (hi : i < p.length) (hl : length < p.length) :
    tableLoop p patLen (fuel + 1) lps length i =
      if symCompat p i length then
        if i < lps.length then
          tableLoop p patLen fuel (lps.set i (length + 1)) (length + 1) (i + 1)
        else .error .outOfRange
      else if length ≠ 0 then
        match lps[length - 1]? with
        | some shorter => tableLoop p patLen fuel lps shorter i
        | none => .error .outOfRange
      else if i < lps.length then tableLoop p patLen fuel (lps.set i 0) 0 (i + 1)
      else .error .outOfRange := by
  rw [tableLoop]
  simp only [hip, if_true, symCompat, List.getElem?_eq_getElem hi, List.getElem?_eq_getElem hl]

theorem tableLoop_exit (p : List Char) (patLen : Int) (fuel : Nat) (lps : List Nat)
    (length i : Nat) (hi : ¬ (i : Int) < patLen) :
    tableLoop p patLen (fuel + 1) lps length i = .ok lps := by
  rw [tableLoop]
  simp only [hi, if_false]

theorem overlapLoop_eq_true (second : List Char) :
    ∀ first : List Char, overlapLoop second first = true ↔ ∃ c, c ∈ first ∧ c ∈ second := by
  intro first
  induction first with
  | nil => simp [overlapLoop]
  | cons a rest ih =>
    rw [overlapLoop]
    by_cases h : second.count a > 0
    · simp only [h, if_true, true_iff]
      exact ⟨a, List.mem_cons_self a rest, List.count_pos_iff.1 h⟩
    · simp only [h, if_false, ih]
      constructor
      · rintro ⟨c, hc1, hc2⟩; exact ⟨c, List.mem_cons_of_mem a hc1, hc2⟩
      · rintro ⟨c, hc1, hc2⟩
        rcases List.mem_cons.1 hc1 with hca | hcr
        · subst hca; exact absurd (List.count_pos_iff.2 hc2) h
        · exact ⟨c, hcr, hc2⟩

theorem matchesPattern_mem (a c : Char) (h : matchesPattern a c = true) :
    ∃ allowed, patternCharMap.lookup a = some allowed ∧ c ∈ allowed := by
  unfold matchesPattern at h
  cases hl : patternCharMap.lookup a with
  | none => rw [hl] at h; cases h
  | some allowed =>
    rw [hl] at h
    refine ⟨allowed, rfl, ?_⟩
    by_cases hb : (c != 'A' && c != 'C' && c != 'G' && c != 'T') = true
    · simp [hb] at h
    · simp only [hb, Bool.false_eq_true, if_false, decide_eq_true_eq] at h
      exact List.count_pos_iff.1 h

theorem kmpLoop_step (s p : List Char) (lps : List Nat) (seqLen : Int) (M fuel i j : Nat)
    (hip : (i : Int) < seqLen) (hi : i < s.length) (hj : j < p.length) :
    kmpLoop s p lps seqLen (M : Int) (fuel + 1) i j =
      match kmpAdvance lps (symMatch p s j i) i j with
      | .error e => .error e
      | .ok (i', j') =>
        if j' = M then .ok true else kmpLoop s p lps seqLen (M : Int) fuel i' j' := by
  rw [kmpLoop]
  simp only [hip, if_true, symMatch, List.getElem?_eq_getElem hj, List.getElem?_eq_getElem hi,
    Nat.cast_inj]

theorem kmpLoop_exit (s p : List Char) (lps : List Nat) (seqLen patLen : Int)
    (fuel i j : Nat) (hi : ¬ (i : Int) < seqLen) :
    kmpLoop s p lps seqLen patLen (fuel + 1) i j = .ok false := by
  rw [kmpLoop]
  simp only [hi, if_false]

theorem lookup_some_mem_keys {β : Type} (a : Char) (v : β) :
    ∀ l : List (Char × β), l.lookup a = some v → a ∈ l.map Prod.fst := by
  intro l
  induction l with
  | nil => intro h; simp [List.lookup] at h
  | cons e rest ih =>
    intro h
    obtain ⟨k, w⟩ := e
    by_cases hk : a = k
    · subst hk; simp
    · have hbeq : (a == k) = false := by simpa using hk
      simp only [List.lookup, hbeq] at h
      simp only [List.map_cons, List.mem_cons]
      exact Or.inr (ih h)

theorem patternCharsMatch_self (a : Char) (h : (patternCharMap.lookup a).isNone = false) :
    patternCharsMatch a a = true := by
  cases hl : patternCharMap.lookup a with
  | none => simp [hl] at h
  | some v =>
    have hmem := lookup_some_mem_keys a v patternCharMap hl
    simp only [patternCharMap, List.map_cons, List.map_nil, List.mem_cons,
      List.mem_singleton, List.not_mem_nil, or_false] at hmem
    rcases hmem with h1 | h1 | h1 | h1 | h1 | h1 | h1 | h1 | h1 | h1 | h1 | h1 | h1 | h1 | h1 <;>
      (subst h1; decide)

theorem verdict_eq (r₁ r₂ : Except Fault Bool) (P : Prop)
    (h₁ : ∃ b, r₁ = .ok b ∧ (b = true ↔ P)) (h₂ : ∃ b, r₂ = .ok b ∧ (b = true ↔ P)) :
    r₁ = r₂ := by
  obtain ⟨b, hb, hbP⟩ := h₁
  obtain ⟨c, hc, hcP⟩ := h₂
  have : b = c := by
    cases b <;> cases c <;> simp_all
  rw [hb, hc, this]

/-! ## Proofs: `matchesQuery` decides whether the query occurs -/

theorem lookup_some_mem {β : Type} (a : Char) (v : β) :
    ∀ l : List (Char × β), l.lookup a = some v → (a, v) ∈ l := by
  intro l
  induction l with
  | nil => intro h; simp [List.lookup] at h
  | cons e rest ih =>
    intro h
    obtain ⟨k, w⟩ := e
    by_cases hk : a = k
    · subst hk
      simp only [List.lookup, beq_self_eq_true, Option.some.injEq] at h
      subst h
      exact List.mem_cons_self _ _
    · have hbeq : (a == k) = false := by simpa using hk
      simp only [List.lookup, hbeq] at h
      exact List.mem_cons_of_mem _ (ih h)

theorem table_only_bases :
    ∀ e, e ∈ patternCharMap → ∀ c, c ∈ e.2 → isBase c = true := by
  decide

theorem queryCharMatches_eq (a b : Char) : queryCharMatches a b = matchesPattern a b := by
  unfold queryCharMatches matchesPattern
  cases hl : patternCharMap.lookup a with
  | none => rfl
  | some v =>
    simp only
    by_cases hb : (b != 'A' && b != 'C' && b != 'G' && b != 'T') = true
    · have hnot : b ∉ v := by
        intro hmem
        have := table_only_bases (a, v) (lookup_some_mem a v patternCharMap hl) b hmem
        unfold isBase at this
        rw [hb] at this
        cases this
      simp [hb, List.count_eq_zero_of_not_mem hnot]
    · simp only [hb, Bool.false_eq_true, if_false]
      by_cases hc : v.count b = 0
      · simp [hc]
      · have : v.count b > 0 := by omega
        simp [hc, this]

theorem queryWindowLoop_eq (s q : List Char) (i : Nat) :
    ∀ fuel j, queryWindowLoop s q i fuel j = windowLoop s q (q.length : Int) i fuel j := by
  intro fuel
  induction fuel with
  | zero => intro j; rfl
  | succ fuel ih =>
    intro j
    rw [queryWindowLoop, windowLoop]
    simp only [queryCharMatches_eq, ih, Nat.cast_lt]

theorem queryLoop_eq (s q : List Char) (hle : q.length ≤ s.length) :
    ∀ fuel i, queryLoop s q fuel i = slideLoop s q (s.length : Int) (q.length : Int) fuel i := by
  intro fuel
  induction fuel with
  | zero => intro i; rfl
  | succ fuel ih =>
    intro i
    rw [queryLoop]
    by_cases hi : i ≤ s.length - q.length
    · rw [slideLoop_step s q _ _ fuel i (by omega)]
      simp only [hi, if_true, queryWindowLoop_eq, ih]
    · rw [slideLoop_exit s q _ _ fuel i (by omega)]
      simp only [hi, if_false]

theorem matchesQuery_spec (s q : List Char) :
    ∃ b, matchesQuery s q = .ok b ∧ (b = true ↔ ∃ i, MatchAt s q i) := by
  unfold matchesQuery
  by_cases hgt : q.length > s.length
  · refine ⟨false, by simp [hgt], ?_⟩
    constructor
    · intro h; cases h
    · rintro ⟨k, hm⟩
      have := hm.1
      omega
  · obtain ⟨b, hb1, hb2⟩ := slideLoop_spec s q (by omega) (s.length - q.length + 2) 0 (by omega)
    refine ⟨b, by simp [hgt, queryLoop_eq s q (by omega), hb1], ?_⟩
    rw [hb2]
    constructor
    · rintro ⟨k, _, hm⟩; exact ⟨k, hm⟩
    · rintro ⟨k, hm⟩; exact ⟨k, Nat.zero_le k, hm⟩

theorem matchesQuery_true_iff (s q : List Char) :
    matchesQuery s q = .ok true ↔ ∃ i, MatchAt s q i := by
  obtain ⟨b, hb, hiff⟩ := matchesQuery_spec s q
  rw [hb, ← hiff]
  constructor
  · intro h; injection h
  · intro h; rw [h]

theorem matchesQuery_eq_slidingWindow (s q : List Char) (hs : s.length < 2 ^ 31)
    (hq : q.length < 2 ^ 31) :
    matchesQuery s q = searchDNASequenceSlidingWindow s q :=
  verdict_eq _ _ _ (matchesQuery_spec s q) (slidingWindow_spec s q hs hq)

theorem matchingLoop_spec (q : List Char) :
    ∀ l acc, matchingLoop q l acc =
      .ok (acc ++ l.filter (fun s => decide (matchesQuery s q = .ok true))) := by
  intro l
  induction l with
  | nil => intro acc; simp [matchingLoop]
  | cons a rest ih =>
    intro acc
    rw [matchingLoop]
    obtain ⟨b, hb, _⟩ := matchesQuery_spec a q
    rw [hb]
    cases b with
    | true => simp [ih, List.filter_cons, hb]
    | false => simp [ih, List.filter_cons, hb]

/-! ## Proofs: the n-gram index -/

/-- The posting list stored under a key; empty when the key is absent. -/
def postingList (index : List (List Char × List (List Char))) (g : List Char) :
    List (List Char) :=
  match index.lookup g with
  | some posting => posting
  | none => []

theorem postingList_indexInsert (g' s' : List Char) :
    ∀ (index : List (List Char × List (List Char))) (g : List Char),
      postingList (indexInsert g' s' index) g =
        if g = g' then List.insert s' (postingList index g) else postingList index g := by
  intro index
  induction index with
  | nil =>
    intro g
    by_cases hg : g = g'
    · subst hg; simp [indexInsert, postingList, List.lookup]
    · have hbeq : (g == g') = false := by simpa using hg
      simp [indexInsert, postingList, List.lookup, hbeq, hg]
  | cons e rest ih =>
    intro g
    obtain ⟨k, post⟩ := e
    rw [indexInsert]
    by_cases hk : g' = k
    · subst hk
      simp only [beq_self_eq_true, if_true]
      by_cases hg : g = g'
      · subst hg; simp [postingList, List.lookup]
      · have hbeq : (g == g') = false := by simpa using hg
        simp [postingList, List.lookup, hbeq, hg]
    · have hbeq : (g' == k) = false := by simpa using hk
      simp only [hbeq, Bool.false_eq_true, if_false]
      by_cases hgk : g = k
      · subst hgk
        have hne : ¬ g = g' := fun h => hk h.symm
        simp [postingList, List.lookup, hne]
      · have hbeq2 : (g == k) = false := by simpa using hgk
        have := ih g
        simp only [postingList, List.lookup, hbeq2] at this ⊢
        exact this

theorem mem_postingList_insertLoop (seq : List Char) :
    ∀ (grams : List (List Char)) (index : List (List Char × List (List Char)))
      (g s : List Char),
      s ∈ postingList (insertLoop seq grams index) g ↔
        s ∈ postingList index g ∨ (g ∈ grams ∧ s = seq) := by
  intro grams
  induction grams with
  | nil => intro index g s; simp [insertLoop]
  | cons a rest ih =>
    intro index g s
    rw [insertLoop, ih, postingList_indexInsert]
    by_cases hg : g = a
    · subst hg
      simp only [if_true, List.mem_insert_iff, List.mem_cons, true_or, true_and]
      tauto
    · simp only [hg, if_false, List.mem_cons, false_or]

theorem nodup_setInsert (a : List Char) (l : List (List Char)) (h : l.Nodup) :
    (List.insert a l).Nodup := by
  by_cases ha : a ∈ l
  · rw [List.insert_of_mem ha]; exact h
  · rw [List.insert_of_not_mem ha]; exact List.nodup_cons.2 ⟨ha, h⟩

theorem nodup_postingList_insertLoop (seq : List Char) :
    ∀ (grams : List (List Char)) (index : List (List Char × List (List Char))),
      (∀ g, (postingList index g).Nodup) →
      ∀ g, (postingList (insertLoop seq grams index) g).Nodup := by
  intro grams
  induction grams with
  | nil => intro index h g; simpa [insertLoop] using h g
  | cons a rest ih =>
    intro index h g
    rw [insertLoop]
    apply ih
    intro g2
    rw [postingList_indexInsert]
    by_cases hg : g2 = a
    · simp only [hg, if_true]
      exact nodup_setInsert seq _ (h a)
    · simp only [hg, if_false]
      exact h g2

theorem mem_postingList_buildLoop (n : Int) :
    ∀ (seqs : List (List Char)) (index : List (List Char × List (List Char)))
      (g s : List Char),
      s ∈ postingList (buildLoop n seqs index) g ↔
        s ∈ postingList index g ∨ (s ∈ seqs ∧ g ∈ extractNGrams n s) := by
  intro seqs
  induction seqs with
  | nil => intro index g s; simp [buildLoop]
  | cons a rest ih =>
    intro index g s
    rw [buildLoop, ih, mem_postingList_insertLoop]
    simp only [List.mem_cons]
    constructor
    · rintro ((h | ⟨h1, h2⟩) | ⟨h1, h2⟩)
      · exact Or.inl h
      · subst h2; exact Or.inr ⟨Or.inl rfl, h1⟩
      · exact Or.inr ⟨Or.inr h1, h2⟩
    · rintro (h | ⟨h1 | h1, h2⟩)
      · exact Or.inl (Or.inl h)
      · subst h1; exact Or.inl (Or.inr ⟨h2, rfl⟩)
      · exact Or.inr ⟨h1, h2⟩

theorem nodup_postingList_buildLoop (n : Int) :
    ∀ (seqs : List (List Char)) (index : List (List Char × List (List Char))),
      (∀ g, (postingList index g).Nodup) →
      ∀ g, (postingList (buildLoop n seqs index) g).Nodup := by
  intro seqs
  induction seqs with
  | nil => intro index h g; simpa [buildLoop] using h g
  | cons a rest ih =>
    intro index h g
    rw [buildLoop]
    exact ih _ (nodup_postingList_insertLoop a _ index h) g

theorem mem_extractNGrams (n : Int) (s g : List Char) :
    g ∈ extractNGrams n s ↔
      ∃ i, i + toSizeT n ≤ s.length ∧ (s.drop i).take (toSizeT n) = g := by
  unfold extractNGrams
  by_cases h : s.length < toSizeT n
  · simp only [h, if_true, List.not_mem_nil, false_iff]
    rintro ⟨i, hi, _⟩
    omega
  · simp only [h, if_false, List.mem_map, List.mem_range]
    constructor
    · rintro ⟨i, hi, hg⟩; exact ⟨i, by omega, hg⟩
    · rintro ⟨i, hi, hg⟩; exact ⟨i, by omega, hg⟩

theorem mem_create_posting (seqs : List (List Char)) (n : Int) (g s : List Char) :
    s ∈ postingList (DNASearchEngine.create seqs n).ngramIndex g ↔
      s ∈ seqs ∧ g ∈ extractNGrams n s := by
  unfold DNASearchEngine.create
  simp only
  rw [mem_postingList_buildLoop]
  simp [postingList, List.lookup]

theorem mem_intersectLoop (posting : List (List Char)) :
    ∀ (candidates acc : List (List Char)) (s : List Char),
      s ∈ intersectLoop posting candidates acc ↔
        s ∈ acc ∨ (s ∈ candidates ∧ s ∈ posting) := by
  intro candidates
  induction candidates with
  | nil => intro acc s; simp [intersectLoop]
  | cons a rest ih =>
    intro acc s
    rw [intersectLoop]
    by_cases h : posting.count a > 0
    · have ha : a ∈ posting := List.count_pos_iff.1 h
      simp only [h, if_true, ih, List.mem_insert_iff, List.mem_cons]
      constructor
      · rintro ((h1 | h1) | ⟨h1, h2⟩)
        · subst h1; exact Or.inr ⟨Or.inl rfl, ha⟩
        · exact Or.inl h1
        · exact Or.inr ⟨Or.inr h1, h2⟩
      · rintro (h1 | ⟨h1 | h1, h2⟩)
        · exact Or.inl (Or.inr h1)
        · exact Or.inl (Or.inl h1)
        · exact Or.inr ⟨h1, h2⟩
    · have ha : a ∉ posting := fun hm => h (List.count_pos_iff.2 hm)
      simp only [h, if_false, ih, List.mem_cons]
      constructor
      · rintro (h1 | ⟨h1, h2⟩)
        · exact Or.inl h1
        · exact Or.inr ⟨Or.inr h1, h2⟩
      · rintro (h1 | ⟨h1 | h1, h2⟩)
        · exact Or.inl h1
        · subst h1; exact absurd h2 ha
        · exact Or.inr ⟨h1, h2⟩

theorem mem_candidateLoop_later (index : List (List Char × List (List Char))) :
    ∀ (grams : List (List Char)) (i : Nat) (candidates : List (List Char)) (s : List Char),
      i ≠ 0 →
      (s ∈ candidateLoop index grams i candidates ↔
        s ∈ candidates ∧ ∀ g, g ∈ grams → s ∈ postingList index g) := by
  intro grams
  induction grams with
  | nil => intro i c s _; simp [candidateLoop]
  | cons a rest ih =>
    intro i c s hi
    rw [candidateLoop]
    simp only [hi, if_false]
    rw [ih (i + 1) _ s (by omega)]
    cases hl : index.lookup a with
    | none =>
      have hp : postingList index a = [] := by simp [postingList, hl]
      simp only [List.not_mem_nil, false_and, false_iff, List.mem_cons, not_and, not_forall]
      intro _
      exact ⟨a, Or.inl rfl, by simp [hp]⟩
    | some post =>
      have hp : postingList index a = post := by simp [postingList, hl]
      simp only [mem_intersectLoop, List.not_mem_nil, false_or, List.mem_cons, forall_eq_or_imp,
        hp]
      tauto

theorem mem_candidateLoop (index : List (List Char × List (List Char)))
    (g0 : List Char) (grams : List (List Char)) (s : List Char) :
    s ∈ candidateLoop index (g0 :: grams) 0 [] ↔
      ∀ g, g ∈ g0 :: grams → s ∈ postingList index g := by
  rw [candidateLoop]
  simp only [if_true]
  rw [mem_candidateLoop_later index grams 1 _ s (by omega)]
  have hp : (match index.lookup g0 with
      | some posting => posting
      | none => ([] : List (List Char))) = postingList index g0 := rfl
  rw [hp]
  simp only [List.mem_cons, forall_eq_or_imp]

/-! ## Proofs: `search` -/

theorem toSizeT_of_pos (n : Int) (hn : 1 ≤ n) : ((toSizeT n : Nat) : Int) = n := by
  unfold toSizeT
  have h0 : 0 ≤ n := by omega
  simp only [h0, if_true]
  exact Int.toNat_of_nonneg h0

theorem substring_iff_offset (g s : List Char) :
    g <:+: s ↔ ∃ i, i + g.length ≤ s.length ∧ (s.drop i).take g.length = g := by
  constructor
  · rintro ⟨a, b, rfl⟩
    refine ⟨a.length, by simp only [List.length_append]; omega, ?_⟩
    rw [List.append_assoc, List.drop_left, List.take_left]
  · rintro ⟨i, _, hg⟩
    rw [← hg]
    exact List.infix_iff_prefix_suffix.2 ⟨s.drop i, List.take_prefix _ _, List.drop_suffix _ _⟩

theorem mem_extractNGrams_iff_substring (n : Int) (s g : List Char) :
    g ∈ extractNGrams n s ↔ g.length = toSizeT n ∧ g <:+: s := by
  rw [mem_extractNGrams, substring_iff_offset]
  constructor
  · rintro ⟨i, hi, hg⟩
    have hlen : g.length = toSizeT n := by
      rw [← hg, List.length_take, List.length_drop]
      omega
    exact ⟨hlen, i, by omega, by rw [hlen]; exact hg⟩
  · rintro ⟨hlen, i, hi, hg⟩
    exact ⟨i, by omega, by rw [← hlen]; exact hg⟩

theorem search_direct (e : DNASearchEngine) (q : List Char)
    (h : extractNGrams e.n q = []) :
    e.search q =
      .ok (e.sequences.filter (fun s => decide (matchesQuery s q = .ok true))) := by
  unfold DNASearchEngine.search DNASearchEngine.directSearch
  simp only [h, List.isEmpty_nil, if_true]
  rw [matchingLoop_spec]
  simp

theorem search_indexed (e : DNASearchEngine) (q g0 : List Char) (gs : List (List Char))
    (h : extractNGrams e.n q = g0 :: gs) :
    e.search q =
      .ok ((candidateLoop e.ngramIndex (g0 :: gs) 0 []).filter
        (fun s => decide (matchesQuery s q = .ok true))) := by
  unfold DNASearchEngine.search
  simp only [h, List.isEmpty_cons, Bool.false_eq_true, if_false]
  rw [matchingLoop_spec]
  simp

theorem slidingWindow_true_iff (s p : List Char) (hs : s.length < 2 ^ 31)
    (hp : p.length < 2 ^ 31) :
    searchDNASequenceSlidingWindow s p = .ok true ↔ ∃ i, MatchAt s p i := by
  obtain ⟨b, hb, hiff⟩ := slidingWindow_spec s p hs hp
  rw [hb, ← hiff]
  constructor
  · intro h; injection h
  · intro h; rw [h]

/-- What `search` returns, on either path: the stored sequences (fallback) or
the sequences listed under every n-gram of the query (indexed path), filtered by
the full match. -/
theorem mem_search (seqs : List (List Char)) (n : Int) (q : List Char) :
    ∃ r, (DNASearchEngine.create seqs n).search q = .ok r ∧
      ∀ s, s ∈ r ↔
        (s ∈ seqs ∧ ∀ g, g ∈ extractNGrams n q → g ∈ extractNGrams n s) ∧
          ∃ i, MatchAt s q i := by
  cases hq : extractNGrams n q with
  | nil =>
    refine ⟨_, search_direct (DNASearchEngine.create seqs n) q hq, fun s => ?_⟩
    simp only [List.mem_filter, decide_eq_true_eq, matchesQuery_true_iff, List.not_mem_nil,
      false_imp_iff, implies_true, and_true]
    rfl
  | cons g0 gs =>
    refine ⟨_, search_indexed (DNASearchEngine.create seqs n) q g0 gs hq, fun s => ?_⟩
    simp only [List.mem_filter, decide_eq_true_eq, matchesQuery_true_iff, mem_candidateLoop,
      mem_create_posting]
    constructor
    · rintro ⟨h, hm⟩
      exact ⟨⟨(h g0 (List.mem_cons_self _ _)).1, fun g hg => (h g hg).2⟩, hm⟩
    · rintro ⟨⟨h1, h2⟩, hm⟩
      exact ⟨fun g hg => ⟨h1, h2 g hg⟩, hm⟩

theorem matchesPattern_concrete (a b : Char)
    (ha : a = 'A' ∨ a = 'C' ∨ a = 'G' ∨ a = 'T') : matchesPattern a b = true ↔ b = a := by
  constructor
  · intro h
    obtain ⟨allowed, hl, hmem⟩ := matchesPattern_mem a b h
    rcases ha with h1 | h1 | h1 | h1 <;> subst h1
    · have : patternCharMap.lookup 'A' = some ['A'] := by decide
      rw [this] at hl; injection hl with hl; subst hl; simpa using hmem
    · have : patternCharMap.lookup 'C' = some ['C'] := by decide
      rw [this] at hl; injection hl with hl; subst hl; simpa using hmem
    · have : patternCharMap.lookup 'G' = some ['G'] := by decide
      rw [this] at hl; injection hl with hl; subst hl; simpa using hmem
    · have : patternCharMap.lookup 'T' = some ['T'] := by decide
      rw [this] at hl; injection hl with hl; subst hl; simpa using hmem
  · intro h
    subst h
    rcases ha with h1 | h1 | h1 | h1 <;> subst h1 <;> decide

theorem matchAt_concrete (s p : List Char)
    (hp : ∀ c, c ∈ p → c = 'A' ∨ c = 'C' ∨ c = 'G' ∨ c = 'T') (i : Nat) :
    MatchAt s p i ↔ i + p.length ≤ s.length ∧ (s.drop i).take p.length = p := by
  rw [matchAt_iff]
  constructor
  · rintro ⟨hb, h⟩
    refine ⟨hb, List.ext_getElem? fun j => ?_⟩
    rw [List.getElem?_take, List.getElem?_drop]
    by_cases hj : j < p.length
    · have hij : i + j < s.length := by omega
      have hm := h j hj
      simp only [symMatch, List.getElem?_eq_getElem hj, List.getElem?_eq_getElem hij] at hm
      have := (matchesPattern_concrete p[j] s[i + j] (hp _ (List.getElem_mem hj))).1 hm
      simp [hj, List.getElem?_eq_getElem hij, this]
    · simp only [hj, if_false]
      rw [List.getElem?_eq_none (by omega)]
  · rintro ⟨hb, h⟩
    refine ⟨hb, fun j hj => ?_⟩
    have hij : i + j < s.length := by omega
    have hget : ((s.drop i).take p.length)[j]? = p[j]? := by rw [h]
    rw [List.getElem?_take, List.getElem?_drop] at hget
    simp only [hj, if_true, List.getElem?_eq_getElem hij, List.getElem?_eq_getElem hj,
      Option.some.injEq] at hget
    simp only [symMatch, List.getElem?_eq_getElem hj, List.getElem?_eq_getElem hij]
    exact (matchesPattern_concrete p[j] s[i + j] (hp _ (List.getElem_mem hj))).2 hget

theorem exists_matchAt_concrete (s p : List Char)
    (hp : ∀ c, c ∈ p → c = 'A' ∨ c = 'C' ∨ c = 'G' ∨ c = 'T') :
    (∃ i, MatchAt s p i) ↔ p <:+: s := by
  rw [substring_iff_offset]
  constructor
  · rintro ⟨i, hm⟩; exact ⟨i, (matchAt_concrete s p hp i).1 hm⟩
  · rintro ⟨i, hm⟩; exact ⟨i, (matchAt_concrete s p hp i).2 hm⟩

theorem nodup_intersectLoop (posting : List (List Char)) :
    ∀ (candidates acc : List (List Char)), acc.Nodup →
      (intersectLoop posting candidates acc).Nodup := by
  intro candidates
  induction candidates with
  | nil => intro acc h; simpa [intersectLoop] using h
  | cons a rest ih =>
    intro acc h
    rw [intersectLoop]
    by_cases hc : posting.count a > 0
    · simp only [hc, if_true]
      exact ih _ (nodup_setInsert a acc h)
    · simp only [hc, if_false]
      exact ih _ h

theorem nodup_candidateLoop (index : List (List Char × List (List Char)))
    (hidx : ∀ g, (postingList index g).Nodup) :
    ∀ (grams : List (List Char)) (i : Nat) (candidates : List (List Char)),
      candidates.Nodup → (candidateLoop index grams i candidates).Nodup := by
  intro grams
  induction grams with
  | nil => intro i c h; simpa [candidateLoop] using h
  | cons a rest ih =>
    intro i c h
    rw [candidateLoop]
    apply ih
    have hp := hidx a
    unfold postingList at hp
    by_cases hi : i = 0
    · simp only [hi, if_true]
      cases hl : index.lookup a with
      | none => exact h
      | some post => rw [hl] at hp; exact hp
    · simp only [hi, if_false]
      cases hl : index.lookup a with
      | none => exact List.nodup_nil
      | some post => exact nodup_intersectLoop post c [] List.nodup_nil

/-- On the indexed path the result of `search` holds no string twice, whatever
the stored collection. -/
theorem search_indexed_nodup (seqs : List (List Char)) (n : Int) (q : List Char)
    (h : extractNGrams n q ≠ []) :
    ∃ r, (DNASearchEngine.create seqs n).search q = .ok r ∧ r.Nodup := by
  cases hq : extractNGrams n q with
  | nil => exact absurd hq h
  | cons g0 gs =>
    refine ⟨_, search_indexed (DNASearchEngine.create seqs n) q g0 gs hq, ?_⟩
    apply List.Nodup.filter
    apply nodup_candidateLoop _ _ _ _ _ List.nodup_nil
    intro g
    unfold DNASearchEngine.create
    apply nodup_postingList_buildLoop
    intro g2
    simp [postingList, List.lookup]

/-! ## Runs with wrapped lengths -/

theorem toInt_two_pow_31 : toInt (2 ^ 31) = -(2 ^ 31) := by
  decide

theorem toInt_two_pow_32 : toInt (2 ^ 32) = 0 := by
  decide

/-- The naive loop does not iterate when one of the `int` lengths is not
positive; the verdict is then `0 == patLen`. -/
theorem naive_of_no_iteration (s p : List Char)
    (h : ¬ (0 < toInt s.length ∧ 0 < toInt p.length)) :
    searchDNASequenceNaive s p = .ok ((0 : Int) == toInt p.length) := by
  unfold searchDNASequenceNaive
  rw [naiveLoop_exit s p _ _ _ 0 0 (by simpa using h)]
  rfl

theorem slidingWindow_of_zero_patLen (s p : List Char) (h : toInt p.length = 0) :
    searchDNASequenceSlidingWindow s p = .ok true := by
  unfold searchDNASequenceSlidingWindow
  simp only [h, if_true]

theorem slidingWindow_of_shorter_seqLen (s p : List Char) (h0 : toInt p.length ≠ 0)
    (hlt : toInt s.length < toInt p.length) :
    searchDNASequenceSlidingWindow s p = .ok false := by
  unfold searchDNASequenceSlidingWindow
  simp only [h0, hlt, if_false, if_true]

theorem kmp_of_zero_patLen (s p : List Char) (h : toInt p.length = 0) :
    searchDNASequenceKMP s p = .ok true := by
  unfold searchDNASequenceKMP
  simp only [h, if_true]

theorem buildKMPTable_of_negative_patLen (p : List Char) (hneg : toInt p.length < 0) :
    buildKMPTable p = .error .lengthError := by
  unfold buildKMPTable
  simp only [hneg, if_true]

theorem kmp_of_negative_patLen (s p : List Char) (hneg : toInt p.length < 0)
    (hs : toInt s.length ≠ 0) :
    searchDNASequenceKMP s p = .error .lengthError := by
  unfold searchDNASequenceKMP
  have h0 : ¬ toInt p.length = 0 := by omega
  simp only [h0, hs, if_false, buildKMPTable_of_negative_patLen p hneg]

theorem getElem?_replicate_eq (n m : Nat) (c b : Char)
    (h : (List.replicate n c)[m]? = some b) : b = c :=
  List.eq_of_mem_replicate (List.mem_iff_getElem?.2 ⟨m, h⟩)

/-- A string of `k` copies of `c` occurs at offset 0 of a string of `n ≥ k`
copies of `c`, when `c` matches itself. -/
theorem matchAt_replicate (n k : Nat) (c : Char) (hk : k ≤ n)
    (hc : matchesPattern c c = true) :
    MatchAt (List.replicate n c) (List.replicate k c) 0 := by
  refine ⟨by simp only [List.length_replicate]; omega, fun j a b ha hb => ?_⟩
  rw [getElem?_replicate_eq _ _ _ _ ha, getElem?_replicate_eq _ _ _ _ hb]
  exact hc

/-- C1 fails on the code for a sequence of 2^31 characters: `seqLen` wraps to
-2^31, the guard `seqLen < patLen` returns `false`, although the pattern A
occurs at offset 0 of the sequence of 2^31 letters A. -/
theorem C1_fails_on_sequence_of_two_pow_31 :
    searchDNASequenceSlidingWindow (List.replicate (2 ^ 31) 'A') (List.replicate 1 'A')
        = .ok false ∧
      MatchAt (List.replicate (2 ^ 31) 'A') (List.replicate 1 'A') 0 := by
  refine ⟨?_, matchAt_replicate _ _ 'A' (by decide) (by decide)⟩
  apply slidingWindow_of_shorter_seqLen
  · rw [List.length_replicate]; decide
  · rw [List.length_replicate, List.length_replicate, toInt_two_pow_31]; decide

/-- C1 as amended: when both lengths fit the code's `int` (fewer than 2^31
characters each), the sliding-window search returns a verdict, and that verdict
is `true` exactly when some offset `i` with `i + len p ≤ len s` has every
pattern symbol `p[j]` matching the base `s[i+j]`. -/
theorem C1_slidingWindow_contract (s p : List Char) (hs : s.length < 2 ^ 31)
    (hp : p.length < 2 ^ 31) :
    (∃ b, searchDNASequenceSlidingWindow s p = .ok b) ∧
      (searchDNASequenceSlidingWindow s p = .ok true ↔ ∃ i, MatchAt s p i) := by
  obtain ⟨b, hb, hiff⟩ := slidingWindow_spec s p hs hp
  refine ⟨⟨b, hb⟩, ?_⟩
  rw [hb, ← hiff]
  constructor
  · intro h; injection h
  · intro h; rw [h]

/-- Witness for the amended C1: sequence GATTACA, pattern GATTR. -/
theorem C1_slidingWindow_contract_witness :
    ("GATTACA".toList.length < 2 ^ 31 ∧ "GATTR".toList.length < 2 ^ 31) ∧
      (∃ b, searchDNASequenceSlidingWindow "GATTACA".toList "GATTR".toList = .ok b) ∧
      (searchDNASequenceSlidingWindow "GATTACA".toList "GATTR".toList = .ok true ↔
        ∃ i, MatchAt "GATTACA".toList "GATTR".toList i) :=
  ⟨by decide, C1_slidingWindow_contract "GATTACA".toList "GATTR".toList (by decide) (by decide)⟩

/-- C4 fails on the code: on the valid sequence AGAC and the valid pattern ARC
the KMP search reports a match, while the naive and the sliding-window search
report none (neither window AGA nor GAC matches A, R, C). -/
theorem C4_kmp_disagrees_on_AGAC_ARC :
    isValidSequence "AGAC".toList = true ∧ isValidPattern "ARC".toList = true ∧
      buildKMPTable "ARC".toList = .ok [0, 1, 0] ∧
      searchDNASequenceKMP "AGAC".toList "ARC".toList = .ok true ∧
      searchDNASequenceNaive "AGAC".toList "ARC".toList = .ok false ∧
      searchDNASequenceSlidingWindow "AGAC".toList "ARC".toList = .ok false := by
  decide

/-- C5 fails on the code: with the sequences GATTACA and GATTG indexed under
n = 4, the valid pattern GATTR occurs in both sequences under ambiguity-aware
matching, yet `search` returns the empty result: the query n-gram ATTR is looked
up as a literal key and is in no posting list. -/
theorem C5_search_GATTR_returns_nothing :
    isValidPattern "GATTR".toList = true ∧
      searchDNASequenceSlidingWindow "GATTACA".toList "GATTR".toList = .ok true ∧
      searchDNASequenceSlidingWindow "GATTG".toList "GATTR".toList = .ok true ∧
      (DNASearchEngine.create ["GATTACA".toList, "GATTG".toList] 4).search "GATTR".toList
        = .ok [] := by
  decide

/-- C6: for a pattern of concrete bases A, C, G, T, `search` returns a result,
and a string is in it exactly when it is one of the indexed sequences and
contains the pattern as a contiguous substring.  This holds for every n-gram
size, so in particular for n ≥ 1 and a pattern at least n long (the indexed
path). -/
theorem C6_exact_queries_answered_exactly (seqs : List (List Char)) (n : Int)
    (p : List Char) (hp : ∀ c, c ∈ p → c = 'A' ∨ c = 'C' ∨ c = 'G' ∨ c = 'T') :
    ∃ r, (DNASearchEngine.create seqs n).search p = .ok r ∧
      ∀ s, s ∈ r ↔ s ∈ seqs ∧ p <:+: s := by
  obtain ⟨r, hr, hmem⟩ := mem_search seqs n p
  refine ⟨r, hr, fun s => ?_⟩
  rw [hmem, exists_matchAt_concrete s p hp]
  constructor
  · rintro ⟨⟨h1, _⟩, h3⟩; exact ⟨h1, h3⟩
  · rintro ⟨h1, h3⟩
    refine ⟨⟨h1, fun g hg => ?_⟩, h3⟩
    obtain ⟨hgl, hgp⟩ := (mem_extractNGrams_iff_substring n p g).1 hg
    exact (mem_extractNGrams_iff_substring n s g).2 ⟨hgl, hgp.trans h3⟩

/-- Witness for C6 on the demonstration engine: sequences GATTACA and GATTG,
n = 4, query ATTACA (six concrete bases, so the indexed path is taken). -/
theorem C6_exact_queries_answered_exactly_witness :
    ((∀ c, c ∈ "ATTACA".toList → c = 'A' ∨ c = 'C' ∨ c = 'G' ∨ c = 'T') ∧
      extractNGrams 4 "ATTACA".toList ≠ []) ∧
    ∃ r, (DNASearchEngine.create ["GATTACA".toList, "GATTG".toList] 4).search "ATTACA".toList
        = .ok r ∧
      ∀ s, s ∈ r ↔ s ∈ ["GATTACA".toList, "GATTG".toList] ∧ "ATTACA".toList <:+: s :=
  ⟨by decide,
    C6_exact_queries_answered_exactly ["GATTACA".toList, "GATTG".toList] 4 "ATTACA".toList
      (by decide)⟩

/-- C7: for every collection, every n-gram size and every pattern, `search`
returns a result, and every string in it is one of the indexed sequences on
which `matchesQuery` with the whole pattern is true, that is, in which the
pattern occurs at some offset under ambiguity-aware matching.  On the probe
ATTAGATT with n = 4 and query GATTA the sequence survives the intersection of
the posting lists (both n-grams GATT and ATTA occur in it) and is discarded by
the verification. -/
theorem C7_results_are_verified_members (seqs : List (List Char)) (n : Int) (p : List Char) :
    (∃ r, (DNASearchEngine.create seqs n).search p = .ok r ∧
      ∀ s, s ∈ r → s ∈ seqs ∧ matchesQuery s p = .ok true ∧ ∃ i, MatchAt s p i) ∧
    (candidateLoop (DNASearchEngine.create ["ATTAGATT".toList] 4).ngramIndex
        (extractNGrams 4 "GATTA".toList) 0 [] = ["ATTAGATT".toList] ∧
      (DNASearchEngine.create ["ATTAGATT".toList] 4).search "GATTA".toList = .ok []) := by
  refine ⟨?_, by decide⟩
  obtain ⟨r, hr, hmem⟩ := mem_search seqs n p
  refine ⟨r, hr, fun s hs => ?_⟩
  obtain ⟨⟨h1, _⟩, h3⟩ := (hmem s).1 hs
  exact ⟨h1, (matchesQuery_true_iff s p).2 h3, h3⟩

/-- C8: for n ≥ 1 and a pattern shorter than n, the empty pattern included,
`search` returns the indexed sequences, in their stored order, that the direct
sliding-window scan `matchesQuery` accepts; that scan is `true` exactly when the
pattern occurs at some offset (the contract of the sliding-window search), and
it equals `searchDNASequenceSlidingWindow` whenever both lengths fit that
function's `int`; so when every stored sequence and the pattern are shorter
than 2^31 characters, `search` returns the stored sequences that
`searchDNASequenceSlidingWindow` accepts. -/
theorem C8_fallback_is_direct_scan (seqs : List (List Char)) (n : Int) (p : List Char)
    (hn : 1 ≤ n) (hlen : (p.length : Int) < n) :
    (DNASearchEngine.create seqs n).search p =
        .ok (seqs.filter (fun s => decide (matchesQuery s p = .ok true))) ∧
      (∀ s, matchesQuery s p = .ok true ↔ ∃ i, MatchAt s p i) ∧
      (∀ s, s.length < 2 ^ 31 → p.length < 2 ^ 31 →
        matchesQuery s p = searchDNASequenceSlidingWindow s p) ∧
      ((∀ s, s ∈ seqs → s.length < 2 ^ 31) → p.length < 2 ^ 31 →
        (DNASearchEngine.create seqs n).search p =
          .ok (seqs.filter
            (fun s => decide (searchDNASequenceSlidingWindow s p = .ok true)))) := by
  have hq : extractNGrams n p = [] := by
    unfold extractNGrams
    have := toSizeT_of_pos n hn
    have hlt : p.length < toSizeT n := by omega
    simp [hlt]
  have hdirect := search_direct (DNASearchEngine.create seqs n) p hq
  refine ⟨hdirect, fun s => matchesQuery_true_iff s p,
    fun s hs hp => matchesQuery_eq_slidingWindow s p hs hp, fun hseqs hp => ?_⟩
  rw [hdirect]
  have hsame : ∀ s, s ∈ seqs →
      decide (matchesQuery s p = .ok true)
        = decide (searchDNASequenceSlidingWindow s p = .ok true) := by
    intro s hs
    rw [matchesQuery_eq_slidingWindow s p (hseqs s hs) hp]
  exact congrArg Except.ok (List.filter_congr hsame)

/-- Witness for C8: sequences GATTACA and GATTG under n = 4, pattern GAT. -/
theorem C8_fallback_is_direct_scan_witness :
    ((1 : Int) ≤ 4 ∧ ("GAT".toList.length : Int) < 4) ∧
      (DNASearchEngine.create ["GATTACA".toList, "GATTG".toList] 4).search "GAT".toList =
        .ok (["GATTACA".toList, "GATTG".toList].filter
          (fun s => decide (matchesQuery s "GAT".toList = .ok true))) ∧
      (∀ s, matchesQuery s "GAT".toList = .ok true ↔ ∃ i, MatchAt s "GAT".toList i) ∧
      (∀ s, s.length < 2 ^ 31 → "GAT".toList.length < 2 ^ 31 →
        matchesQuery s "GAT".toList = searchDNASequenceSlidingWindow s "GAT".toList) ∧
      ((∀ s, s ∈ ["GATTACA".toList, "GATTG".toList] → s.length < 2 ^ 31) →
        "GAT".toList.length < 2 ^ 31 →
        (DNASearchEngine.create ["GATTACA".toList, "GATTG".toList] 4).search "GAT".toList =
          .ok (["GATTACA".toList, "GATTG".toList].filter
            (fun s => decide (searchDNASequenceSlidingWindow s "GAT".toList = .ok true)))) :=
  ⟨by decide,
    C8_fallback_is_direct_scan ["GATTACA".toList, "GATTG".toList] 4 "GAT".toList
      (by decide) (by decide)⟩

/-- C9: after construction with n ≥ 1, a string `s` is in the posting list under
key `g` exactly when `s` is an indexed sequence, `g` has length n and `g` is the
substring of `s` at some offset `i` with `i + n ≤ len s`; and no posting list
holds a string twice. -/
theorem C9_index_invariant (seqs : List (List Char)) (n : Int) (g s : List Char)
    (hn : 1 ≤ n) :
    (s ∈ postingList (DNASearchEngine.create seqs n).ngramIndex g ↔
      s ∈ seqs ∧ (g.length : Int) = n ∧
        ∃ i, i + g.length ≤ s.length ∧ (s.drop i).take g.length = g) ∧
    (postingList (DNASearchEngine.create seqs n).ngramIndex g).Nodup := by
  have hsz := toSizeT_of_pos n hn
  constructor
  · rw [mem_create_posting, mem_extractNGrams_iff_substring, substring_iff_offset]
    constructor
    · rintro ⟨h1, h2, h3⟩; exact ⟨h1, by omega, h3⟩
    · rintro ⟨h1, h2, h3⟩; exact ⟨h1, by omega, h3⟩
  · unfold DNASearchEngine.create
    apply nodup_postingList_buildLoop
    intro g2
    simp [postingList, List.lookup]

/-- Witness for C9: sequences GATTACA and GATTG under n = 4, key GATT, string
GATTG. -/
theorem C9_index_invariant_witness :
    (1 : Int) ≤ 4 ∧
    ("GATTG".toList ∈
        postingList (DNASearchEngine.create ["GATTACA".toList, "GATTG".toList] 4).ngramIndex
          "GATT".toList ↔
      "GATTG".toList ∈ ["GATTACA".toList, "GATTG".toList] ∧
        ("GATT".toList.length : Int) = 4 ∧
        ∃ i, i + "GATT".toList.length ≤ "GATTG".toList.length ∧
          ("GATTG".toList.drop i).take "GATT".toList.length = "GATT".toList) ∧
    (postingList (DNASearchEngine.create ["GATTACA".toList, "GATTG".toList] 4).ngramIndex
      "GATT".toList).Nodup :=
  ⟨by decide,
    C9_index_invariant ["GATTACA".toList, "GATTG".toList] 4 "GATT".toList "GATTG".toList
      (by decide)⟩

/-- C10 fails on the fallback path: with the sequence GATT listed twice and
n = 4, the query GAT (shorter than n) returns GATT twice, while the query GATT
(indexed path) returns it once. -/
theorem C10_fallback_repeats_duplicates :
    (DNASearchEngine.create ["GATT".toList, "GATT".toList] 4).search "GAT".toList
        = .ok ["GATT".toList, "GATT".toList] ∧
      (DNASearchEngine.create ["GATT".toList, "GATT".toList] 4).search "GATT".toList
        = .ok ["GATT".toList] := by
  decide

/-! ## The alphabet and the matcher -/

theorem lookup_isSome_iff_mem_keys {β : Type} (a : Char) :
    ∀ l : List (Char × β), (l.lookup a).isSome = true ↔ a ∈ l.map Prod.fst := by
  intro l
  induction l with
  | nil => simp [List.lookup]
  | cons e rest ih =>
    obtain ⟨k, w⟩ := e
    by_cases hk : a = k
    · subst hk; simp [List.lookup]
    · have hbeq : (a == k) = false := by simpa using hk
      simp only [List.lookup, hbeq, List.map_cons, List.mem_cons, hk, false_or]
      exact ih

theorem isValidPattern_iff (p : List Char) :
    isValidPattern p = true ↔ ∀ c, c ∈ p → (patternCharMap.lookup c).isSome = true := by
  induction p with
  | nil => simp [isValidPattern]
  | cons a rest ih =>
    rw [isValidPattern]
    cases hl : patternCharMap.lookup a with
    | none =>
      simp only [Option.isNone_none, if_true, Bool.false_eq_true, false_iff]
      intro h
      have := h a (List.mem_cons_self a rest)
      rw [hl] at this
      cases this
    | some v =>
      simp only [Option.isNone_some, Bool.false_eq_true, if_false, ih, List.mem_cons]
      constructor
      · intro h c hc
        rcases hc with hc | hc
        · subst hc; rw [hl]; rfl
        · exact h c hc
      · intro h c hc
        exact h c (Or.inr hc)

theorem isBase_iff (c : Char) :
    isBase c = true ↔ c = 'A' ∨ c = 'C' ∨ c = 'G' ∨ c = 'T' := by
  unfold isBase
  by_cases h1 : c = 'A' <;> by_cases h2 : c = 'C' <;> by_cases h3 : c = 'G' <;>
    by_cases h4 : c = 'T' <;> simp [h1, h2, h3, h4]

theorem patternCharsMatch_iff (a b : Char) :
    patternCharsMatch a b = true ↔
      ∃ first second, patternCharMap.lookup a = some first ∧
        patternCharMap.lookup b = some second ∧ ∃ c, c ∈ first ∧ c ∈ second := by
  unfold patternCharsMatch
  cases ha : patternCharMap.lookup a with
  | none => simp
  | some first =>
    cases hb : patternCharMap.lookup b with
    | none => simp
    | some second =>
      simp only [overlapLoop_eq_true, Option.some.injEq, exists_and_left, exists_eq_left']

theorem patternCharsMatch_comm (a b : Char) :
    patternCharsMatch a b = patternCharsMatch b a := by
  have h : ∀ x y, patternCharsMatch x y = true → patternCharsMatch y x = true := by
    intro x y hxy
    obtain ⟨f, g, hf, hg, c, hcf, hcg⟩ := (patternCharsMatch_iff x y).1 hxy
    exact (patternCharsMatch_iff y x).2 ⟨g, f, hg, hf, c, hcg, hcf⟩
  cases hab : patternCharsMatch a b with
  | true => exact (h a b hab).symm
  | false =>
    cases hba : patternCharsMatch b a with
    | true => rw [h b a hba] at hab; cases hab
    | false => rfl
/-- C12: on every sequence, the empty one and those with invalid characters
included, the naive, the KMP and the sliding-window search all return `true`
for the empty pattern. -/
theorem C12_empty_pattern_law (s : List Char) :
    searchDNASequenceNaive s [] = .ok true ∧ searchDNASequenceKMP s [] = .ok true ∧
      searchDNASequenceSlidingWindow s [] = .ok true := by
  have h0 : toInt ([] : List Char).length = 0 := by decide
  refine ⟨?_, kmp_of_zero_patLen s [] h0, slidingWindow_of_zero_patLen s [] h0⟩
  rw [naive_of_no_iteration s [] (by rw [h0]; omega), h0]
  rfl

/-- C15: `matchesPattern(symbol, base)` is `true` exactly when the base is one
of A, C, G, T, the symbol is a key of the alphabet table and the base is in the
set stored for the symbol; on an unrecognised symbol or an invalid base it
returns `false`. -/
theorem C15_matchesPattern_contract (symbol base : Char) :
    (matchesPattern symbol base = true ↔
      (base = 'A' ∨ base = 'C' ∨ base = 'G' ∨ base = 'T') ∧
        ∃ allowed, patternCharMap.lookup symbol = some allowed ∧ base ∈ allowed) ∧
    (patternCharMap.lookup symbol = none → matchesPattern symbol base = false) ∧
    (¬ (base = 'A' ∨ base = 'C' ∨ base = 'G' ∨ base = 'T') →
      matchesPattern symbol base = false) := by
  have hiff : matchesPattern symbol base = true ↔
      (base = 'A' ∨ base = 'C' ∨ base = 'G' ∨ base = 'T') ∧
        ∃ allowed, patternCharMap.lookup symbol = some allowed ∧ base ∈ allowed := by
    constructor
    · intro h
      obtain ⟨allowed, hl, hmem⟩ := matchesPattern_mem symbol base h
      refine ⟨?_, allowed, hl, hmem⟩
      exact (isBase_iff base).1
        (table_only_bases (symbol, allowed) (lookup_some_mem symbol allowed _ hl) base hmem)
    · rintro ⟨hb, allowed, hl, hmem⟩
      unfold matchesPattern
      rw [hl]
      have hcond : (base != 'A' && base != 'C' && base != 'G' && base != 'T') = false := by
        have h := (isBase_iff base).2 hb
        unfold isBase at h
        cases hc : (base != 'A' && base != 'C' && base != 'G' && base != 'T') with
        | false => rfl
        | true => rw [hc] at h; cases h
      simp only [hcond, Bool.false_eq_true, if_false, decide_eq_true_eq]
      exact List.count_pos_iff.2 hmem
  refine ⟨hiff, ?_, ?_⟩
  · intro hnone
    cases hm : matchesPattern symbol base with
    | false => rfl
    | true =>
      obtain ⟨_, allowed, hl, _⟩ := hiff.1 hm
      rw [hnone] at hl
      cases hl
  · intro hnb
    cases hm : matchesPattern symbol base with
    | false => rfl
    | true => exact absurd (hiff.1 hm).1 hnb

/-- C16: `patternCharsMatch` is `true` exactly when both symbols are keys of the
table and their sets share a base; it is reflexive on recognised symbols,
symmetric on all characters, and not transitive: A and R are compatible, R and
G are compatible, A and G are not. -/
theorem C16_compatibility_relation :
    (∀ a b, patternCharsMatch a b = true ↔
      ∃ first second, patternCharMap.lookup a = some first ∧
        patternCharMap.lookup b = some second ∧ ∃ c, c ∈ first ∧ c ∈ second) ∧
    (∀ a, (patternCharMap.lookup a).isSome = true → patternCharsMatch a a = true) ∧
    (∀ a b, patternCharsMatch a b = patternCharsMatch b a) ∧
    ((patternCharMap.lookup 'A').isSome = true ∧ (patternCharMap.lookup 'R').isSome = true ∧
      (patternCharMap.lookup 'G').isSome = true ∧ patternCharsMatch 'A' 'R' = true ∧
      patternCharsMatch 'R' 'G' = true ∧ patternCharsMatch 'A' 'G' = false) := by
  refine ⟨patternCharsMatch_iff, ?_, patternCharsMatch_comm, by decide⟩
  intro a ha
  apply patternCharsMatch_self
  cases hl : patternCharMap.lookup a with
  | none => rw [hl] at ha; cases ha
  | some v => rfl

/-- C17 fails as stated: the characters recognised by the table cannot be
listed as 16 distinct symbols. -/
theorem C17_not_sixteen_symbols :
    ¬ ∃ l : List Char, l.Nodup ∧ l.length = 16 ∧
      ∀ c, c ∈ l ↔ (patternCharMap.lookup c).isSome = true := by
  rintro ⟨l, hnd, hlen, hmem⟩
  have hkeys : (patternCharMap.map Prod.fst).Nodup := by decide
  have hperm : l.Perm (patternCharMap.map Prod.fst) :=
    (List.perm_ext_iff_of_nodup hnd hkeys).2
      (fun c => (hmem c).trans (lookup_isSome_iff_mem_keys c patternCharMap))
  have := hperm.length_eq
  rw [hlen] at this
  revert this
  decide

/-- C17 as amended: the table recognises exactly 15 symbols, the 4 concrete
bases (each mapped to itself), 10 degenerate codes (two or three bases each) and
the any-base code N (all four bases); every other character is unrecognised, and
`isValidPattern` accepts exactly the strings over these 15 symbols. -/
theorem C17_fifteen_symbols :
    (∀ c, (patternCharMap.lookup c).isSome = true ↔
      c ∈ ['A', 'C', 'G', 'T', 'R', 'Y', 'M', 'K', 'W', 'S', 'B', 'D', 'H', 'V', 'N']) ∧
    ['A', 'C', 'G', 'T', 'R', 'Y', 'M', 'K', 'W', 'S', 'B', 'D', 'H', 'V', 'N'].Nodup ∧
    ['A', 'C', 'G', 'T', 'R', 'Y', 'M', 'K', 'W', 'S', 'B', 'D', 'H', 'V', 'N'].length = 15 ∧
    patternCharMap.filter (fun e => decide (e.2 = [e.1]))
      = [('A', ['A']), ('C', ['C']), ('G', ['G']), ('T', ['T'])] ∧
    (patternCharMap.filter (fun e => decide (2 ≤ e.2.length ∧ e.2.length ≤ 3))).map Prod.fst
      = ['R', 'Y', 'M', 'K', 'W', 'S', 'B', 'D', 'H', 'V'] ∧
    patternCharMap.filter (fun e => decide (e.2.length = 4))
      = [('N', ['A', 'C', 'G', 'T'])] ∧
    (∀ p, isValidPattern p = true ↔
      ∀ c, c ∈ p →
        c ∈ ['A', 'C', 'G', 'T', 'R', 'Y', 'M', 'K', 'W', 'S', 'B', 'D', 'H', 'V', 'N']) := by
  have hkeys : ∀ c, (patternCharMap.lookup c).isSome = true ↔
      c ∈ ['A', 'C', 'G', 'T', 'R', 'Y', 'M', 'K', 'W', 'S', 'B', 'D', 'H', 'V', 'N'] :=
    fun c => lookup_isSome_iff_mem_keys c patternCharMap
  refine ⟨hkeys, by decide, by decide, by decide, by decide, by decide, fun p => ?_⟩
  rw [isValidPattern_iff]
  constructor
  · intro h c hc; exact (hkeys c).1 (h c hc)
  · intro h c hc; exact (hkeys c).2 (h c hc)
/-- C19: the failure table built with the compatibility predicate can be too
aggressive: on the valid sequence AGGT and the valid pattern ANT, which holds
the degenerate symbol N, the KMP search returns `true` although the pattern
occurs at no offset; the sliding-window and the naive search return `false`. -/
theorem C19_kmp_false_positive :
    ∃ s p : List Char, isValidSequence s = true ∧ isValidPattern p = true ∧
      (∃ c, c ∈ p ∧ isBase c = false) ∧
      searchDNASequenceKMP s p = .ok true ∧ (¬ ∃ i, MatchAt s p i) ∧
      searchDNASequenceSlidingWindow s p = .ok false ∧
      searchDNASequenceNaive s p = .ok false := by
  refine ⟨"AGGT".toList, "ANT".toList, by decide, by decide, ⟨'N', by decide, by decide⟩,
    by decide, ?_, by decide, by decide⟩
  intro h
  have h1 := (slidingWindow_true_iff "AGGT".toList "ANT".toList (by decide) (by decide)).2 h
  revert h1
  decide

/-- C20: the failure table built with the compatibility predicate can be too
conservative: on the valid sequence ACCAACCAACG and the valid pattern ACCAMCG,
which holds the degenerate symbol M, the pattern occurs at offset 4 and the
sliding-window search returns `true`, but the KMP search returns `false`. -/
theorem C20_kmp_false_negative :
    ∃ s p : List Char, isValidSequence s = true ∧ isValidPattern p = true ∧
      (∃ c, c ∈ p ∧ isBase c = false) ∧
      MatchAt s p 4 ∧ searchDNASequenceSlidingWindow s p = .ok true ∧
      searchDNASequenceKMP s p = .ok false := by
  refine ⟨"ACCAACCAACG".toList, "ACCAMCG".toList, by decide, by decide,
    ⟨'M', by decide, by decide⟩, ?_, by decide, by decide⟩
  rw [matchAt_iff]
  decide

/-! ## The KMP path on arbitrary patterns -/

theorem bounded_set (lps : List Nat) (i w : Nat) (hw : w ≤ i)
    (h : ∀ k v : Nat, lps[k]? = some v → v ≤ k) :
    ∀ k v : Nat, (lps.set i w)[k]? = some v → v ≤ k := by
  intro k v hk
  by_cases hki : i = k
  · subst hki
    by_cases hlt : i < lps.length
    · simp [List.getElem?_set, hlt] at hk
      omega
    · simp [List.getElem?_set, hlt] at hk
  · rw [List.getElem?_set_ne hki] at hk
    exact h k v hk

theorem bounded_initial (M : Nat) :
    ∀ k v : Nat, ((List.replicate M 0).set 0 0)[k]? = some v → v ≤ k := by
  apply bounded_set _ 0 0 (le_refl 0)
  intro k v hk
  by_cases hkl : k < M
  · simp [List.getElem?_replicate, hkl] at hk
    omega
  · simp [List.getElem?_replicate, hkl] at hk

/-- The table loop with an `int` length `M` that does not exceed the pattern:
from a state with `length < i ≤ M` and a table of `M` entries bounded by their
index, the loop ends with such a table. -/
theorem tableLoop_safe (p : List Char) (M : Nat) (hM : M ≤ p.length) :
    ∀ fuel lps length i, lps.length = M → 1 ≤ i → i ≤ M → length < i →
      (∀ k v : Nat, lps[k]? = some v → v ≤ k) →
      2 * (M - i) + length < fuel →
      ∃ t, tableLoop p (M : Int) fuel lps length i = .ok t ∧ t.length = M ∧
        ∀ k v : Nat, t[k]? = some v → v ≤ k := by
  intro fuel
  induction fuel with
  | zero => intro lps length i _ _ _ _ _ h; omega
  | succ fuel ih =>
    intro lps length i hlen hi1 him hli hb hf
    by_cases hi : i < M
    · rw [tableLoop_step p _ fuel lps length i (by omega) (by omega) (by omega)]
      by_cases hm : symCompat p i length = true
      · simp only [hm, if_true, hlen, hi]
        exact ih _ _ _ (by simp [hlen]) (by omega) (by omega) (by omega)
          (bounded_set lps i (length + 1) (by omega) hb) (by omega)
      · simp only [hm, Bool.false_eq_true, if_false]
        by_cases hl0 : length = 0
        · subst hl0
          simp only [ne_eq, not_true_eq_false, if_false, hlen, hi, if_true]
          exact ih _ _ _ (by simp [hlen]) (by omega) (by omega) (by omega)
            (bounded_set lps i 0 (by omega) hb) (by omega)
        · have hlt : length - 1 < lps.length := by omega
          have hv : lps[length - 1]? = some lps[length - 1] := List.getElem?_eq_getElem hlt
          have hvb := hb _ _ hv
          simp only [ne_eq, hl0, not_false_eq_true, if_true, hv]
          exact ih lps _ i hlen hi1 him (by omega) hb (by omega)
    · rw [tableLoop_exit p _ fuel lps length i (by omega)]
      exact ⟨lps, rfl, hlen, hb⟩

theorem buildKMPTable_safe (p : List Char) (hp : 0 < toInt p.length) :
    ∃ t, buildKMPTable p = .ok t ∧ (t.length : Int) = toInt p.length ∧
      ∀ k v : Nat, t[k]? = some v → v ≤ k := by
  obtain ⟨M, hMc⟩ : ∃ M : Nat, toInt p.length = (M : Int) :=
    ⟨(toInt p.length).toNat, (Int.toNat_of_nonneg (by omega)).symm⟩
  have hM : M ≤ p.length := by
    have := toInt_le p.length
    omega
  have hMpos : 0 < M := by omega
  unfold buildKMPTable
  have hneg : ¬ (M : Int) < 0 := by omega
  simp only [hMc, hneg, if_false, Int.toNat_ofNat, List.length_replicate, hMpos, if_true]
  obtain ⟨t, ht, htl, htb⟩ := tableLoop_safe p M hM (2 * p.length + 1)
    ((List.replicate M 0).set 0 0) 0 1 (by simp) (le_refl 1) (by omega) (by omega)
    (bounded_initial M) (by omega)
  exact ⟨t, ht, by omega, htb⟩

theorem buildKMPTable_of_zero_patLen (p : List Char) (h : toInt p.length = 0) :
    buildKMPTable p = .error .outOfRange := by
  unfold buildKMPTable
  simp [h]

/-- The scan with `int` lengths `seqLen` and `M` that do not exceed the strings,
a table of `M` entries bounded by their index, and a pattern position `x` that
no base matches (`x ≥ M` when there is none): the cursor `j` stays below `M`,
below `x` and below `i`, and the scan ends. -/
theorem kmpLoop_capped (s p : List Char) (lps : List Nat) (seqLen : Int)
    (hsl : seqLen ≤ (s.length : Int)) (M : Nat) (hM : M ≤ p.length) (hlen : lps.length = M)
    (hb : ∀ k v : Nat, lps[k]? = some v → v ≤ k) (x : Nat)
    (hnever : x < p.length → ∀ i, symMatch p s x i = false) :
    ∀ fuel i j, i ≤ s.length → j < M → j ≤ i → j ≤ x →
      2 * (s.length - i) + j < fuel →
      ∃ b, kmpLoop s p lps seqLen (M : Int) fuel i j = .ok b ∧
        (b = true → M ≤ x ∧ (M : Int) ≤ seqLen) := by
  intro fuel
  induction fuel with
  | zero => intro i j _ _ _ _ h; omega
  | succ fuel ih =>
    intro i j hin hjm hji hjx hf
    by_cases hi : (i : Int) < seqLen
    · have hi' : i < s.length := by omega
      have hj' : j < p.length := by omega
      rw [kmpLoop_step s p lps seqLen M fuel i j hi hi' hj']
      by_cases hm : symMatch p s j i = true
      · have hlt : j < x := by
          by_contra hc
          have hjx2 : j = x := by omega
          subst hjx2
          rw [hnever hj' i] at hm
          cases hm
        simp only [hm, kmpAdvance, if_true]
        by_cases hlast : j + 1 = M
        · exact ⟨true, by simp [hlast], fun _ => ⟨by omega, by omega⟩⟩
        · simp only [hlast, if_false]
          exact ih (i + 1) (j + 1) (by omega) (by omega) (by omega) (by omega) (by omega)
      · have hm' : symMatch p s j i = false := by simpa using hm
        by_cases hj0 : j = 0
        · subst hj0
          have hpl : ¬ 0 = M := by omega
          simp only [hm', kmpAdvance, Bool.false_eq_true, if_false, ne_eq, not_true_eq_false,
            hpl]
          exact ih (i + 1) 0 (by omega) hjm (by omega) (by omega) (by omega)
        · have hlt : j - 1 < lps.length := by omega
          have hv : lps[j - 1]? = some lps[j - 1] := List.getElem?_eq_getElem hlt
          have hvb := hb _ _ hv
          have hvl : ¬ lps[j - 1] = M := by omega
          simp only [hm', kmpAdvance, Bool.false_eq_true, if_false, ne_eq, hj0,
            not_false_eq_true, if_true, hv, hvl]
          exact ih i _ hin (by omega) (by omega) (by omega) (by omega)
    · rw [kmpLoop_exit s p lps _ _ fuel i j hi]
      exact ⟨false, rfl, fun h => by cases h⟩

/-- The KMP search with a non-negative `patLen` returns a verdict; a verdict
`true` needs every pattern position below `patLen` to be matchable and, unless
`patLen` is `0`, `patLen ≤ seqLen`. -/
theorem kmp_capped (s p : List Char) (x : Nat)
    (hnever : x < p.length → ∀ i, symMatch p s x i = false) (hp : 0 ≤ toInt p.length) :
    ∃ b, searchDNASequenceKMP s p = .ok b ∧
      (b = true → toInt p.length ≤ (x : Int) ∧
        (toInt p.length = 0 ∨ toInt p.length ≤ toInt s.length)) := by
  unfold searchDNASequenceKMP
  by_cases h0 : toInt p.length = 0
  · exact ⟨true, by simp [h0], fun _ => ⟨by omega, Or.inl h0⟩⟩
  · by_cases hs : toInt s.length = 0
    · exact ⟨false, by simp [h0, hs], fun h => by cases h⟩
    · obtain ⟨t, ht, htl, htb⟩ := buildKMPTable_safe p (by omega)
      obtain ⟨M, hMc⟩ : ∃ M : Nat, toInt p.length = (M : Int) :=
        ⟨(toInt p.length).toNat, (Int.toNat_of_nonneg hp).symm⟩
      have hM : M ≤ p.length := by
        have := toInt_le p.length
        omega
      simp only [h0, hs, if_false, ht]
      obtain ⟨b, hb, himp⟩ := kmpLoop_capped s p t (toInt s.length) (toInt_le s.length) M hM
        (by omega) htb x hnever (2 * s.length + 1) 0 0 (Nat.zero_le _) (by omega)
        (le_refl 0) (Nat.zero_le _) (by omega)
      rw [hMc]
      refine ⟨b, hb, fun hbt => ?_⟩
      obtain ⟨h1, h2⟩ := himp hbt
      exact ⟨by omega, Or.inr h2⟩

theorem verdict_false (r : Except Fault Bool) (P : Prop)
    (h : ∃ b, r = .ok b ∧ (b = true ↔ P)) (hP : ¬ P) : r = .ok false := by
  obtain ⟨b, hb, hiff⟩ := h
  cases b with
  | false => exact hb
  | true => exact absurd (hiff.1 rfl) hP

/-- C13 fails on the code for a pattern of 2^32 characters: `patLen` wraps to
0, so on the one-letter sequence A, which is shorter than the pattern, the
naive, the KMP and the sliding-window search all return `true`. -/
theorem C13_fails_on_pattern_of_two_pow_32 :
    (List.replicate 1 'A').length < (List.replicate (2 ^ 32) 'A').length ∧
      searchDNASequenceNaive (List.replicate 1 'A') (List.replicate (2 ^ 32) 'A') = .ok true ∧
      searchDNASequenceKMP (List.replicate 1 'A') (List.replicate (2 ^ 32) 'A') = .ok true ∧
      searchDNASequenceSlidingWindow (List.replicate 1 'A') (List.replicate (2 ^ 32) 'A')
        = .ok true := by
  have h0 : toInt (List.replicate (2 ^ 32) 'A').length = 0 := by
    rw [List.length_replicate, toInt_two_pow_32]
  refine ⟨by simp only [List.length_replicate]; decide, ?_, kmp_of_zero_patLen _ _ h0,
    slidingWindow_of_zero_patLen _ _ h0⟩
  rw [naive_of_no_iteration _ _ (by rw [h0]; omega), h0]
  rfl

/-- C13 as amended: when the sequence is shorter than the pattern and the
pattern's length fits the code's `int` (fewer than 2^31 characters), the naive,
the KMP and the sliding-window search all return `false`, whatever the symbols
of the pattern (degenerate or unrecognised ones included). -/
theorem C13_longer_pattern_is_no_match (s p : List Char) (h : s.length < p.length)
    (hfit : p.length < 2 ^ 31) :
    searchDNASequenceNaive s p = .ok false ∧ searchDNASequenceKMP s p = .ok false ∧
      searchDNASequenceSlidingWindow s p = .ok false := by
  have hsfit : s.length < 2 ^ 31 := by omega
  have hno : ¬ ∃ i, MatchAt s p i := by
    rintro ⟨i, hm⟩
    have := hm.1
    omega
  refine ⟨verdict_false _ _ (naive_spec s p hsfit hfit) hno, ?_,
    verdict_false _ _ (slidingWindow_spec s p hsfit hfit) hno⟩
  have hp := toInt_of_lt _ hfit
  have hs := toInt_of_lt _ hsfit
  obtain ⟨b, hb, himp⟩ := kmp_capped s p p.length (fun hlt => absurd hlt (lt_irrefl _))
    (by omega)
  cases b with
  | false => exact hb
  | true =>
    have := (himp rfl).2
    omega

/-- Witness for the amended C13: sequence AG, pattern ARN (two degenerate
symbols). -/
theorem C13_longer_pattern_is_no_match_witness :
    ("AG".toList.length < "ARN".toList.length ∧ "ARN".toList.length < 2 ^ 31) ∧
      searchDNASequenceNaive "AG".toList "ARN".toList = .ok false ∧
      searchDNASequenceKMP "AG".toList "ARN".toList = .ok false ∧
      searchDNASequenceSlidingWindow "AG".toList "ARN".toList = .ok false :=
  ⟨by decide,
    C13_longer_pattern_is_no_match "AG".toList "ARN".toList (by decide) (by decide)⟩

theorem lookup_indexInsert (g' s' : List Char) :
    ∀ (index : List (List Char × List (List Char))) (g : List Char),
      (indexInsert g' s' index).lookup g =
        if g = g' then some (List.insert s' (postingList index g)) else index.lookup g := by
  intro index
  induction index with
  | nil =>
    intro g
    by_cases hg : g = g'
    · subst hg; simp [indexInsert, postingList, List.lookup]
    · have hbeq : (g == g') = false := by simpa using hg
      simp [indexInsert, List.lookup, hbeq, hg]
  | cons e rest ih =>
    intro g
    obtain ⟨k, post⟩ := e
    rw [indexInsert]
    by_cases hk : g' = k
    · subst hk
      simp only [beq_self_eq_true, if_true]
      by_cases hg : g = g'
      · subst hg; simp [postingList, List.lookup]
      · have hbeq : (g == g') = false := by simpa using hg
        simp [List.lookup, hbeq, hg]
    · have hbeq : (g' == k) = false := by simpa using hk
      simp only [hbeq, Bool.false_eq_true, if_false]
      by_cases hgk : g = k
      · subst hgk
        have hne : ¬ g = g' := fun h => hk h.symm
        simp [List.lookup, hne]
      · have hbeq2 : (g == k) = false := by simpa using hgk
        have := ih g
        simp only [postingList, List.lookup, hbeq2] at this ⊢
        exact this

theorem setInsert_ne_nil (a : List Char) (l : List (List Char)) : List.insert a l ≠ [] := by
  intro h
  have : a ∈ List.insert a l := List.mem_insert_self a l
  rw [h] at this
  cases this

theorem postings_nonempty_insertLoop (seq : List Char) :
    ∀ (grams : List (List Char)) (index : List (List Char × List (List Char))),
      (∀ g post, index.lookup g = some post → post ≠ []) →
      ∀ g post, (insertLoop seq grams index).lookup g = some post → post ≠ [] := by
  intro grams
  induction grams with
  | nil => intro index h g post hl; exact h g post (by simpa [insertLoop] using hl)
  | cons a rest ih =>
    intro index h g post hl
    rw [insertLoop] at hl
    refine ih _ ?_ g post hl
    intro g2 post2 hl2
    rw [lookup_indexInsert] at hl2
    by_cases hg : g2 = a
    · simp only [hg, if_true, Option.some.injEq] at hl2
      rw [← hl2]
      exact setInsert_ne_nil _ _
    · simp only [hg, if_false] at hl2
      exact h g2 post2 hl2

theorem postings_nonempty_buildLoop (n : Int) :
    ∀ (seqs : List (List Char)) (index : List (List Char × List (List Char))),
      (∀ g post, index.lookup g = some post → post ≠ []) →
      ∀ g post, (buildLoop n seqs index).lookup g = some post → post ≠ [] := by
  intro seqs
  induction seqs with
  | nil => intro index h g post hl; exact h g post (by simpa [buildLoop] using hl)
  | cons a rest ih =>
    intro index h g post hl
    rw [buildLoop] at hl
    exact ih _ (postings_nonempty_insertLoop a _ index h) g post hl

/-- A key is present in the built index exactly when some stored sequence has it
as an n-gram. -/
theorem lookup_create_eq_none (seqs : List (List Char)) (n : Int) (g : List Char) :
    (DNASearchEngine.create seqs n).ngramIndex.lookup g = none ↔
      ∀ s, s ∈ seqs → g ∉ extractNGrams n s := by
  have hne : ∀ post, (DNASearchEngine.create seqs n).ngramIndex.lookup g = some post →
      post ≠ [] := by
    intro post hl
    unfold DNASearchEngine.create at hl
    exact postings_nonempty_buildLoop n seqs [] (by intro g post h; simp [List.lookup] at h)
      g post hl
  have hmem := fun s => mem_create_posting seqs n g s
  constructor
  · intro hl s hs hg
    have := (hmem s).2 ⟨hs, hg⟩
    simp [postingList, hl] at this
  · intro h
    cases hl : (DNASearchEngine.create seqs n).ngramIndex.lookup g with
    | none => rfl
    | some post =>
      exfalso
      obtain ⟨s, hs⟩ := List.exists_mem_of_ne_nil post (hne post hl)
      have hs2 : s ∈ postingList (DNASearchEngine.create seqs n).ngramIndex g := by
        simpa [postingList, hl] using hs
      obtain ⟨h1, h2⟩ := (hmem s).1 hs2
      exact h s h1 h2

theorem isValidSequence_iff (s : List Char) :
    isValidSequence s = true ↔ ∀ c, c ∈ s → isBase c = true := by
  induction s with
  | nil => simp [isValidSequence]
  | cons a rest ih =>
    rw [isValidSequence]
    cases hc : (a != 'A' && a != 'C' && a != 'G' && a != 'T') with
    | true =>
      simp only [if_true, Bool.false_eq_true, false_iff]
      intro h
      have := h a (List.mem_cons_self a rest)
      unfold isBase at this
      rw [hc] at this
      cases this
    | false =>
      simp only [Bool.false_eq_true, if_false, ih, List.mem_cons]
      constructor
      · intro h c hcm
        rcases hcm with hcm | hcm
        · subst hcm; unfold isBase; rw [hc]; rfl
        · exact h c hcm
      · intro h c hcm
        exact h c (Or.inr hcm)

/-- A query at least `N ≥ 1` long has, around each of its positions, a window of
length `N` that holds the character at that position. -/
theorem exists_gram_through (p : List Char) (N x : Nat) (hN : 1 ≤ N) (hlen : N ≤ p.length)
    (hx : x < p.length) :
    ∃ i, i + N ≤ p.length ∧ ∀ c, p[x]? = some c → c ∈ (p.drop i).take N := by
  refine ⟨min x (p.length - N), by omega, fun c hc => ?_⟩
  apply List.mem_iff_getElem?.2
  refine ⟨x - min x (p.length - N), ?_⟩
  rw [List.getElem?_take, List.getElem?_drop]
  have h1 : x - min x (p.length - N) < N := by omega
  have h2 : min x (p.length - N) + (x - min x (p.length - N)) = x := by omega
  simp only [h1, if_true, h2]
  exact hc

/-- C18: when every indexed sequence holds only A, C, G, T, n ≥ 1 and the
pattern is at least n long and holds a character outside A, C, G, T, then some
n-gram of the pattern is not a key of the index and `search` returns the empty
result, whether or not the pattern occurs in an indexed sequence under
ambiguity-aware matching. -/
theorem C18_degenerate_query_finds_nothing (seqs : List (List Char)) (n : Int)
    (p : List Char) (hv : ∀ s, s ∈ seqs → isValidSequence s = true) (hn : 1 ≤ n)
    (hlen : n ≤ (p.length : Int)) (hbad : ∃ c, c ∈ p ∧ isBase c = false) :
    (∃ g, g ∈ extractNGrams n p ∧
      (DNASearchEngine.create seqs n).ngramIndex.lookup g = none) ∧
    (DNASearchEngine.create seqs n).search p = .ok [] := by
  obtain ⟨c, hcp, hc⟩ := hbad
  obtain ⟨x, hx, hxc⟩ := List.mem_iff_getElem.1 hcp
  have hsz := toSizeT_of_pos n hn
  obtain ⟨i, hi, hmem⟩ := exists_gram_through p (toSizeT n) x (by omega) (by omega) hx
  have hcg : c ∈ (p.drop i).take (toSizeT n) :=
    hmem c (by rw [List.getElem?_eq_getElem hx, hxc])
  have hg : (p.drop i).take (toSizeT n) ∈ extractNGrams n p :=
    (mem_extractNGrams n p _).2 ⟨i, hi, rfl⟩
  have habsent : ∀ s, s ∈ seqs → (p.drop i).take (toSizeT n) ∉ extractNGrams n s := by
    intro s hs hgs
    have hsub := ((mem_extractNGrams_iff_substring n s _).1 hgs).2
    have hcs : c ∈ s := hsub.subset hcg
    have := (isValidSequence_iff s).1 (hv s hs) c hcs
    rw [hc] at this
    cases this
  refine ⟨⟨_, hg, (lookup_create_eq_none seqs n _).2 habsent⟩, ?_⟩
  cases hq : extractNGrams n p with
  | nil => rw [hq] at hg; cases hg
  | cons g0 gs =>
    rw [search_indexed (DNASearchEngine.create seqs n) p g0 gs hq]
    have hnil : candidateLoop (DNASearchEngine.create seqs n).ngramIndex (g0 :: gs) 0 [] = [] := by
      apply List.eq_nil_iff_forall_not_mem.2
      intro s hs
      rw [mem_candidateLoop] at hs
      have := hs _ (by rw [← hq]; exact hg)
      rw [mem_create_posting] at this
      exact habsent s this.1 this.2
    rw [hnil]
    rfl

/-- Witness for C18 on the demonstration engine: sequences GATTACA and GATTG,
n = 4, query GATTRR. -/
theorem C18_degenerate_query_finds_nothing_witness :
    ((∀ s, s ∈ ["GATTACA".toList, "GATTG".toList] → isValidSequence s = true) ∧
      (1 : Int) ≤ 4 ∧ (4 : Int) ≤ ("GATTRR".toList.length : Int) ∧
      ∃ c, c ∈ "GATTRR".toList ∧ isBase c = false) ∧
    (∃ g, g ∈ extractNGrams 4 "GATTRR".toList ∧
      (DNASearchEngine.create ["GATTACA".toList, "GATTG".toList] 4).ngramIndex.lookup g
        = none) ∧
    (DNASearchEngine.create ["GATTACA".toList, "GATTG".toList] 4).search "GATTRR".toList
      = .ok [] :=
  ⟨⟨by decide, by decide, by decide, 'R', by decide, by decide⟩,
    C18_degenerate_query_finds_nothing ["GATTACA".toList, "GATTG".toList] 4 "GATTRR".toList
      (by decide) (by decide) (by decide) ⟨'R', by decide, by decide⟩⟩

/-! ## Non-positive n-gram sizes -/

theorem buildLoop_of_no_grams (n : Int) :
    ∀ (seqs : List (List Char)) (index : List (List Char × List (List Char))),
      (∀ s, s ∈ seqs → extractNGrams n s = []) → buildLoop n seqs index = index := by
  intro seqs
  induction seqs with
  | nil => intro index _; rfl
  | cons a rest ih =>
    intro index h
    rw [buildLoop, h a (List.mem_cons_self a rest), insertLoop]
    exact ih index (fun s hs => h s (List.mem_cons_of_mem a hs))

theorem toSizeT_of_neg (n : Int) (hn : n < 0) (hint : -(2 : Int) ^ 31 ≤ n) :
    2 ^ 63 < toSizeT n := by
  unfold toSizeT
  have h0 : ¬ 0 ≤ n := by omega
  simp only [h0, if_false]
  omega

theorem toSizeT_zero : toSizeT 0 = 0 := by
  decide

theorem mem_extractNGrams_zero (s g : List Char) : g ∈ extractNGrams 0 s ↔ g = [] := by
  rw [mem_extractNGrams_iff_substring, toSizeT_zero]
  constructor
  · rintro ⟨h, _⟩; exact List.length_eq_zero.1 h
  · intro h; subst h; exact ⟨rfl, List.nil_infix⟩

/-- C11 fails on the code: the constructor has no check on the n-gram size.
With n = 0 it builds an engine whose index has the empty string as its only
key, with n = -1 an engine whose index is empty, and both engines answer
queries. -/
theorem C11_constructor_accepts_nonpositive_n :
    (DNASearchEngine.create ["GATTACA".toList] 0).ngramIndex = [([], ["GATTACA".toList])] ∧
      (DNASearchEngine.create ["GATTACA".toList] (-1)).ngramIndex = [] ∧
      (DNASearchEngine.create ["GATTACA".toList] 0).search "GATT".toList
        = .ok ["GATTACA".toList] ∧
      (DNASearchEngine.create ["GATTACA".toList] (-1)).search "GATT".toList
        = .ok ["GATTACA".toList] := by
  decide

/-- C11 as amended: construction accepts every `int` n-gram size n ≤ 0 (stored
strings shorter than 2^63). For n = 0 the posting list under the empty string
holds exactly the stored sequences and no other key holds anything; for n < 0
the index is empty. On such an engine `search` still returns exactly the stored
sequences in which the pattern occurs under ambiguity-aware matching. -/
theorem C11_nonpositive_n_builds_degenerate_index (seqs : List (List Char)) (n : Int)
    (hn : n ≤ 0) (hint : -(2 : Int) ^ 31 ≤ n) (hlen : ∀ s, s ∈ seqs → s.length < 2 ^ 63) :
    (n = 0 → ∀ g s, s ∈ postingList (DNASearchEngine.create seqs n).ngramIndex g ↔
      s ∈ seqs ∧ g = []) ∧
    (n < 0 → (DNASearchEngine.create seqs n).ngramIndex = []) ∧
    (∀ p, ∃ r, (DNASearchEngine.create seqs n).search p = .ok r ∧
      ∀ s, s ∈ r ↔ s ∈ seqs ∧ ∃ i, MatchAt s p i) := by
  refine ⟨?_, ?_, ?_⟩
  · intro h0 g s
    subst h0
    rw [mem_create_posting, mem_extractNGrams_zero]
  · intro hneg
    have hbig := toSizeT_of_neg n hneg hint
    unfold DNASearchEngine.create
    simp only
    apply buildLoop_of_no_grams
    intro s hs
    have := hlen s hs
    unfold extractNGrams
    have hlt : s.length < toSizeT n := by omega
    simp [hlt]
  · intro p
    obtain ⟨r, hr, hmem⟩ := mem_search seqs n p
    refine ⟨r, hr, fun s => ?_⟩
    rw [hmem]
    constructor
    · rintro ⟨⟨h1, _⟩, h3⟩; exact ⟨h1, h3⟩
    · rintro ⟨h1, i, hm⟩
      refine ⟨⟨h1, fun g hg => ?_⟩, i, hm⟩
      by_cases h0 : n = 0
      · subst h0
        rw [mem_extractNGrams_zero] at hg ⊢
        exact hg
      · exfalso
        have hbig := toSizeT_of_neg n (by omega) hint
        obtain ⟨hgl, hgp⟩ := (mem_extractNGrams_iff_substring n p g).1 hg
        have h2 := hgp.length_le
        have h3 := hm.1
        have h4 := hlen s h1
        omega

/-- Witness for the amended C11: the single sequence GATTACA under n = 0. -/
theorem C11_nonpositive_n_builds_degenerate_index_witness :
    ((0 : Int) ≤ 0 ∧ -(2 : Int) ^ 31 ≤ 0 ∧
      ∀ s, s ∈ ["GATTACA".toList] → s.length < 2 ^ 63) ∧
    ((0 : Int) = 0 →
      ∀ g s, s ∈ postingList (DNASearchEngine.create ["GATTACA".toList] 0).ngramIndex g ↔
        s ∈ ["GATTACA".toList] ∧ g = []) ∧
    ((0 : Int) < 0 → (DNASearchEngine.create ["GATTACA".toList] 0).ngramIndex = []) ∧
    (∀ p, ∃ r, (DNASearchEngine.create ["GATTACA".toList] 0).search p = .ok r ∧
      ∀ s, s ∈ r ↔ s ∈ ["GATTACA".toList] ∧ ∃ i, MatchAt s p i) :=
  ⟨⟨by decide, by decide, by decide⟩,
    C11_nonpositive_n_builds_degenerate_index ["GATTACA".toList] 0
      (by decide) (by decide) (by decide)⟩

/-! ## Index safety of the KMP path: the states the two loops go through -/

/-- One iteration of the `while` loop of `buildKMPTable` from the state
`(lps, length, i)` with `i < patLen`: the reads of `pattern[i]`,
`pattern[length]` and `lps[length - 1]`, the write of `lps[i]`, and the next
state. -/
def tableIter (pattern : List Char) (lps : List Nat) (length i : Nat) :
    Except Fault (List Nat × Nat × Nat) :=
  match pattern[i]?, pattern[length]? with
  | some a, some b =>
    if patternCharsMatch a b then
      if i < lps.length then .ok (lps.set i (length + 1), length + 1, i + 1)
      else .error .outOfRange
    else if length ≠ 0 then
      match lps[length - 1]? with
      | some shorter => .ok (lps, shorter, i)
      | none => .error .outOfRange
    else if i < lps.length then .ok (lps.set i 0, 0, i + 1)
    else .error .outOfRange
  | _, _ => .error .outOfRange

/-- The states at which the loop of `buildKMPTable` tests its condition
`i < patLen`: the initial state after `vector<int> lps(patLen, 0)` and
`lps[0] = 0`, and the state after each iteration. -/
inductive TableReach (pattern : List Char) : List Nat → Nat → Nat → Prop where
  | start :
      TableReach pattern ((List.replicate (toInt pattern.length).toNat 0).set 0 0) 0 1
  | next (lps : List Nat) (length i : Nat) (lps' : List Nat) (length' i' : Nat) :
      TableReach pattern lps length i → (i : Int) < toInt pattern.length →
      tableIter pattern lps length i = .ok (lps', length', i') →
      TableReach pattern lps' length' i'

/-- One iteration of the `while` loop of `searchDNASequenceKMP` from the cursors
`(i, j)` with `i < seqLen`: the reads of `sequence[i]`, `pattern[j]` and
`lps[j - 1]`, and the next cursors. -/
def kmpIter (sequence pattern : List Char) (lps : List Nat) (i j : Nat) :
    Except Fault (Nat × Nat) :=
  match sequence[i]?, pattern[j]? with
  | some seqChar, some patChar => kmpAdvance lps (matchesPattern patChar seqChar) i j
  | _, _ => .error .outOfRange

/-- The cursors at which the loop of `searchDNASequenceKMP` tests its condition
`i < seqLen`: `(0, 0)`, and the cursors after each iteration that did not
return at `j == patLen`. -/
inductive ScanReach (sequence pattern : List Char) (lps : List Nat) : Nat → Nat → Prop where
  | start : ScanReach sequence pattern lps 0 0
  | next (i j i' j' : Nat) :
      ScanReach sequence pattern lps i j → (i : Int) < toInt sequence.length →
      kmpIter sequence pattern lps i j = .ok (i', j') → (j' : Int) ≠ toInt pattern.length →
      ScanReach sequence pattern lps i' j'

/-- The loop of `buildKMPTable` is the iteration of `tableIter`. -/
theorem tableLoop_iter (p : List Char) (patLen : Int) (fuel : Nat) (lps : List Nat)
    (length i : Nat) :
    tableLoop p patLen (fuel + 1) lps length i =
      if (i : Int) < patLen then
        match tableIter p lps length i with
        | .error e => .error e
        | .ok (lps', length', i') => tableLoop p patLen fuel lps' length' i'
      else .ok lps := by
  rw [tableLoop]
  by_cases hi : (i : Int) < patLen
  · simp only [hi, if_true, tableIter]
    cases p[i]? with
    | none => rfl
    | some a =>
      cases p[length]? with
      | none => rfl
      | some b =>
        simp only
        by_cases hm : patternCharsMatch a b = true
        · simp only [hm, if_true]
          by_cases hl : i < lps.length
          · simp only [hl, if_true]
          · simp only [hl, if_false]
        · simp only [hm, Bool.false_eq_true, if_false]
          by_cases hl0 : length = 0
          · simp only [hl0, ne_eq, not_true_eq_false, if_false]
            by_cases hl : i < lps.length
            · simp only [hl, if_true]
            · simp only [hl, if_false]
          · simp only [ne_eq, hl0, not_false_eq_true, if_true]
            cases lps[length - 1]? with
            | none => rfl
            | some v => rfl
  · simp only [hi, if_false]

/-- The loop of `searchDNASequenceKMP` is the iteration of `kmpIter`. -/
theorem kmpLoop_iter (s p : List Char) (lps : List Nat) (seqLen patLen : Int)
    (fuel i j : Nat) :
    kmpLoop s p lps seqLen patLen (fuel + 1) i j =
      if (i : Int) < seqLen then
        match kmpIter s p lps i j with
        | .error e => .error e
        | .ok (i', j') =>
          if (j' : Int) = patLen then .ok true else kmpLoop s p lps seqLen patLen fuel i' j'
      else .ok false := by
  rw [kmpLoop]
  by_cases hi : (i : Int) < seqLen
  · simp only [hi, if_true, kmpIter]
    cases s[i]? with
    | none => rfl
    | some a =>
      cases p[j]? with
      | none => rfl
      | some b => rfl
  · simp only [hi, if_false]

/-- In a state that satisfies the invariant of the table loop, an iteration
reads and writes inside the pattern and the table, and leads to a state that
satisfies the invariant again. -/
theorem tableIter_inv (p : List Char) (M : Nat) (hM : M ≤ p.length) (lps : List Nat)
    (length i : Nat) (hlen : lps.length = M) (hi : i < M) (hli : length < i)
    (hb : ∀ k v : Nat, lps[k]? = some v → v ≤ k) :
    ∃ lps' length' i', tableIter p lps length i = .ok (lps', length', i') ∧
      lps'.length = M ∧ i ≤ i' ∧ i' ≤ M ∧ length' < i' ∧
      (∀ k v : Nat, lps'[k]? = some v → v ≤ k) := by
  have hi' : i < p.length := by omega
  have hl : length < p.length := by omega
  unfold tableIter
  simp only [List.getElem?_eq_getElem hi', List.getElem?_eq_getElem hl]
  by_cases hm : patternCharsMatch p[i] p[length] = true
  · simp only [hm, if_true, hlen, hi]
    exact ⟨_, _, _, rfl, by simp [hlen], by omega, by omega, by omega,
      bounded_set lps i (length + 1) (by omega) hb⟩
  · simp only [hm, Bool.false_eq_true, if_false]
    by_cases hl0 : length = 0
    · subst hl0
      simp only [ne_eq, not_true_eq_false, if_false, hlen, hi, if_true]
      exact ⟨_, _, _, rfl, by simp [hlen], by omega, by omega, by omega,
        bounded_set lps i 0 (by omega) hb⟩
    · have hlt : length - 1 < lps.length := by omega
      have hv : lps[length - 1]? = some lps[length - 1] := List.getElem?_eq_getElem hlt
      have hvb := hb _ _ hv
      simp only [ne_eq, hl0, not_false_eq_true, if_true, hv]
      exact ⟨_, _, _, rfl, hlen, le_refl i, by omega, by omega, hb⟩

theorem tableReach_inv (p : List Char) (M : Nat) (hMc : toInt p.length = (M : Int))
    (hMpos : 0 < M) (lps : List Nat) (length i : Nat) (h : TableReach p lps length i) :
    lps.length = M ∧ 1 ≤ i ∧ i ≤ M ∧ length < i ∧
      (∀ k v : Nat, lps[k]? = some v → v ≤ k) := by
  have hM : M ≤ p.length := by
    have := toInt_le p.length
    omega
  induction h with
  | start =>
    rw [hMc, Int.toNat_ofNat]
    exact ⟨by simp, le_refl 1, by omega, by omega, bounded_initial M⟩
  | next lps length i lps' length' i' _ hi hiter ih =>
    obtain ⟨hlen, hi1, _, hli, hb⟩ := ih
    obtain ⟨l2, n2, i2, heq, h1, h2, h3, h4, h5⟩ :=
      tableIter_inv p M hM lps length i hlen (by omega) hli hb
    rw [heq] at hiter
    injection hiter with hiter
    injection hiter with e1 hiter
    injection hiter with e2 e3
    subst e1; subst e2; subst e3
    exact ⟨h1, by omega, h3, h4, h5⟩

/-- With a table of `M` entries bounded by their index, `M` not above the
pattern's length, an iteration of the scan from cursors `j < M`, `j ≤ i`,
`i` inside the sequence, reads inside the sequence, the pattern and the table,
and keeps `j ≤ i`. -/
theorem kmpIter_inv (s p : List Char) (lps : List Nat) (M : Nat) (hM : M ≤ p.length)
    (hlen : lps.length = M) (hb : ∀ k v : Nat, lps[k]? = some v → v ≤ k) (i j : Nat)
    (hi : i < s.length) (hj : j < M) (hji : j ≤ i) :
    ∃ i' j', kmpIter s p lps i j = .ok (i', j') ∧ j' ≤ i' ∧ i' ≤ s.length ∧ i' ≤ i + 1 ∧
      j' ≤ M := by
  have hj' : j < p.length := by omega
  unfold kmpIter
  simp only [List.getElem?_eq_getElem hi, List.getElem?_eq_getElem hj', kmpAdvance]
  by_cases hm : matchesPattern p[j] s[i] = true
  · simp only [hm, if_true]
    exact ⟨_, _, rfl, by omega, by omega, by omega, by omega⟩
  · simp only [hm, Bool.false_eq_true, if_false]
    by_cases hj0 : j = 0
    · subst hj0
      simp only [ne_eq, not_true_eq_false, if_false]
      exact ⟨_, _, rfl, by omega, by omega, by omega, by omega⟩
    · have hlt : j - 1 < lps.length := by omega
      have hv : lps[j - 1]? = some lps[j - 1] := List.getElem?_eq_getElem hlt
      have hvb := hb _ _ hv
      simp only [ne_eq, hj0, not_false_eq_true, if_true, hv]
      exact ⟨_, _, rfl, by omega, by omega, by omega, by omega⟩

theorem scanReach_inv (s p : List Char) (lps : List Nat) (M : Nat)
    (hMc : toInt p.length = (M : Int)) (hMpos : 0 < M) (hlen : lps.length = M)
    (hb : ∀ k v : Nat, lps[k]? = some v → v ≤ k) (i j : Nat) (h : ScanReach s p lps i j) :
    j < M ∧ j ≤ i ∧ i ≤ s.length := by
  have hM : M ≤ p.length := by
    have := toInt_le p.length
    omega
  have hsl := toInt_le s.length
  induction h with
  | start => exact ⟨hMpos, le_refl 0, Nat.zero_le _⟩
  | next i j i' j' _ hi hiter hne ih =>
    obtain ⟨hj, hji, _⟩ := ih
    obtain ⟨i2, j2, heq, h1, h2, _, h3⟩ :=
      kmpIter_inv s p lps M hM hlen hb i j (by omega) hj hji
    rw [heq] at hiter
    injection hiter with hiter
    injection hiter with e1 e2
    subst e1; subst e2
    exact ⟨by omega, h1, h2⟩

/-- C21: index safety of the KMP path, for every sequence and every pattern,
with the lengths as the code holds them (`seqLen`, `patLen` converted to `int`).
The search returns a verdict or stops at `vector<int> lps(patLen, 0)` with a
negative `patLen`; it never reads or writes out of range.  `buildKMPTable`,
whose write `lps[0] = 0` would be out of range when `patLen` is 0, is only
reached behind the `patLen == 0` guard, so never with an empty pattern.  When
`patLen` is positive the table has `patLen` entries with `lps[k] ≤ k`; every
state of the table loop has `length < i ≤ patLen ≤ len p`, and the iteration
from it (reads of `pattern[i]`, `pattern[length]`, `lps[length - 1]`, write of
`lps[i]`) stays in range; every state of the scan has `j < patLen ≤ len p` and
`j ≤ i ≤ len s`, and the iteration from it (reads of `sequence[i]`,
`pattern[j]`, `lps[j - 1]`) stays in range. -/
theorem C21_kmp_index_safety (s p : List Char) :
    ((∃ b, searchDNASequenceKMP s p = .ok b) ∨
      searchDNASequenceKMP s p = .error .lengthError) ∧
    (0 ≤ toInt p.length → ∃ b, searchDNASequenceKMP s p = .ok b) ∧
    (toInt p.length = 0 →
      buildKMPTable p = .error .outOfRange ∧ searchDNASequenceKMP s p = .ok true) ∧
    (toInt p.length < 0 → buildKMPTable p = .error .lengthError) ∧
    (0 < toInt p.length →
      (∀ t length i, TableReach p t length i →
        (t.length : Int) = toInt p.length ∧ length < i ∧ (i : Int) ≤ toInt p.length ∧
          i ≤ p.length ∧ (∀ k v : Nat, t[k]? = some v → v ≤ k) ∧
          ((i : Int) < toInt p.length → ∃ next, tableIter p t length i = .ok next)) ∧
      ∃ lps, buildKMPTable p = .ok lps ∧ (lps.length : Int) = toInt p.length ∧
        (∀ k v : Nat, lps[k]? = some v → v ≤ k) ∧
        ∀ i j, ScanReach s p lps i j →
          (j : Int) < toInt p.length ∧ j < p.length ∧ j ≤ i ∧ i ≤ s.length ∧
            ((i : Int) < toInt s.length → ∃ next, kmpIter s p lps i j = .ok next)) := by
  have hverdict : 0 ≤ toInt p.length → ∃ b, searchDNASequenceKMP s p = .ok b := by
    intro hp
    obtain ⟨b, hb, _⟩ := kmp_capped s p p.length (fun hlt => absurd hlt (lt_irrefl _)) hp
    exact ⟨b, hb⟩
  have hple := toInt_le p.length
  have hsle := toInt_le s.length
  refine ⟨?_, hverdict, ?_, buildKMPTable_of_negative_patLen p, ?_⟩
  · by_cases hp : 0 ≤ toInt p.length
    · exact Or.inl (hverdict hp)
    · by_cases hs : toInt s.length = 0
      · refine Or.inl ⟨false, ?_⟩
        unfold searchDNASequenceKMP
        have h0 : ¬ toInt p.length = 0 := by omega
        simp only [h0, hs, if_false, if_true]
      · exact Or.inr (kmp_of_negative_patLen s p (by omega) hs)
  · intro h0
    exact ⟨buildKMPTable_of_zero_patLen p h0, kmp_of_zero_patLen s p h0⟩
  · intro hpos
    obtain ⟨M, hMc⟩ : ∃ M : Nat, toInt p.length = (M : Int) :=
      ⟨(toInt p.length).toNat, (Int.toNat_of_nonneg (by omega)).symm⟩
    have hM : M ≤ p.length := by omega
    have hMpos : 0 < M := by omega
    refine ⟨?_, ?_⟩
    · intro t length i hr
      obtain ⟨hlen, _, him, hli, hb⟩ := tableReach_inv p M hMc hMpos t length i hr
      refine ⟨by omega, hli, by omega, by omega, hb, fun hi => ?_⟩
      obtain ⟨l2, n2, i2, heq, _⟩ := tableIter_inv p M hM t length i hlen (by omega) hli hb
      exact ⟨_, heq⟩
    · obtain ⟨lps, ht, hlen, hb⟩ := buildKMPTable_safe p hpos
      have hlenM : lps.length = M := by omega
      refine ⟨lps, ht, hlen, hb, fun i j hr => ?_⟩
      obtain ⟨hj, hji, hin⟩ := scanReach_inv s p lps M hMc hMpos hlenM hb i j hr
      refine ⟨by omega, by omega, hji, hin, fun hi => ?_⟩
      obtain ⟨i2, j2, heq, _⟩ := kmpIter_inv s p lps M hM hlenM hb i j (by omega) hj hji
      exact ⟨_, heq⟩

/-- Witness for C21 on the first run of `main`: sequence GATTACA, pattern
GATTR, whose table is 0, 0, 0, 0, 1 (R is compatible with G). -/
theorem C21_kmp_index_safety_witness :
    (0 < toInt "GATTR".toList.length ∧
      buildKMPTable "GATTR".toList = .ok [0, 0, 0, 0, 1]) ∧
    ((∃ b, searchDNASequenceKMP "GATTACA".toList "GATTR".toList = .ok b) ∨
      searchDNASequenceKMP "GATTACA".toList "GATTR".toList = .error .lengthError) ∧
    (0 ≤ toInt "GATTR".toList.length →
      ∃ b, searchDNASequenceKMP "GATTACA".toList "GATTR".toList = .ok b) ∧
    (toInt "GATTR".toList.length = 0 →
      buildKMPTable "GATTR".toList = .error .outOfRange ∧
        searchDNASequenceKMP "GATTACA".toList "GATTR".toList = .ok true) ∧
    (toInt "GATTR".toList.length < 0 → buildKMPTable "GATTR".toList = .error .lengthError) ∧
    (0 < toInt "GATTR".toList.length →
      (∀ t length i, TableReach "GATTR".toList t length i →
        (t.length : Int) = toInt "GATTR".toList.length ∧ length < i ∧
          (i : Int) ≤ toInt "GATTR".toList.length ∧ i ≤ "GATTR".toList.length ∧
          (∀ k v : Nat, t[k]? = some v → v ≤ k) ∧
          ((i : Int) < toInt "GATTR".toList.length →
            ∃ next, tableIter "GATTR".toList t length i = .ok next)) ∧
      ∃ lps, buildKMPTable "GATTR".toList = .ok lps ∧
        (lps.length : Int) = toInt "GATTR".toList.length ∧
        (∀ k v : Nat, lps[k]? = some v → v ≤ k) ∧
        ∀ i j, ScanReach "GATTACA".toList "GATTR".toList lps i j →
          (j : Int) < toInt "GATTR".toList.length ∧ j < "GATTR".toList.length ∧ j ≤ i ∧
            i ≤ "GATTACA".toList.length ∧
            ((i : Int) < toInt "GATTACA".toList.length →
              ∃ next, kmpIter "GATTACA".toList "GATTR".toList lps i j = .ok next)) :=
  ⟨by decide, C21_kmp_index_safety "GATTACA".toList "GATTR".toList⟩

end DNA
